import Mathlib

/-!
Shallow embedding of the AIG network (src/unnamed/part_000, `namespace aig`:
`signal`, `storage`, `network`) and of the cut engine
(src/examples/gig/aig.cpp: `trivial`, `expand0`, `evaluate_fanin`,
`select_next_fanin`, `expand`, `create_cut`, `release_cut`), together with
proofs about the claims of the specification.

Modelling conventions:
* machine integers (`uint32_t`) are modelled by `Nat`; none of the verified
  properties involve wrap-around arithmetic;
* `std::vector` indexing is total in the model (`getAt` returns a default
  node out of range, `setAt` out of range is a no-op); all verified
  statements keep indices in range, matching the C++ precondition that
  out-of-range access is a programmer error (spec section 7, item 3);
* the atomic mark word is the `value` field of a node, exactly as in the
  source; `check_and_mark` is modelled sequentially: the
  `compare_exchange_weak` succeeds whenever the loaded word is `0`
  (spurious failure is a concurrency artefact outside a sequential model);
* the two unbounded loops of the cut engine (`expand0`'s fix-point loop and
  `expand`'s while loop) are modelled with an explicit fuel parameter; an
  `exited = false` result means the fuel ran out, which corresponds to the
  source loop not having terminated within that many iterations;
* `expand0`'s `assert( !aig.is_constant( *it ) )` is tracked by the
  `cafail` flag (the model continues past a failed assertion, matching an
  NDEBUG build); the companion `assert( aig.mark( *it ) == thread_id )` is
  not tracked, no claim refers to it;
* in `expand`, the source writes through the empty `std::optional`
  `best_cut` before the loop (`*best_cut = cut;`), which is undefined
  behaviour; the model records this in the `optDeref` flag and leaves the
  optional disengaged, the observable behaviour of common library
  implementations (the write goes to the contained storage without setting
  the engaged flag).
-/

set_option maxRecDepth 4096

namespace Aig

/-- Signal: packs a node index and a complement flag, mirroring the C++
bit-field `uint32_t complement : 1; uint32_t index : 31;`. -/
structure Signal where
  index : Nat
  complement : Bool
deriving DecidableEq, Repr

/-- The raw `data` view of the union: the complement occupies the low bit. -/
def Signal.data (s : Signal) : Nat :=
  2 * s.index + (if s.complement then 1 else 0)

/-- The `operator!` of `signal`: flip the complement flag. -/
def Signal.neg (s : Signal) : Signal :=
  ⟨s.index, !s.complement⟩

/-- One entry of `storage::node_type`: two fanin signals, the atomic mark
word (`value`), and the reference count. -/
structure NodeT where
  fanin0 : Signal
  fanin1 : Signal
  value : Nat
  refCount : Nat
deriving DecidableEq, Repr

/-- A value-initialized `node_type`: both fanins are the zero signal, mark
and reference count are zero.  This is what `nodes.emplace_back()` creates
for the constant node and for the PI nodes. -/
def defaultNode : NodeT :=
  ⟨⟨0, false⟩, ⟨0, false⟩, 0, 0⟩

/-- Total read of a node list at an index; out of range yields the default
node (the C++ `operator[]` out of range is undefined behaviour, never
exercised by the verified statements). -/
def getAt : List NodeT → Nat → NodeT
  | [], _ => defaultNode
  | x :: _, 0 => x
  | _ :: xs, n + 1 => getAt xs n

/-- Total write of a node list at an index; out of range is a no-op. -/
def setAt : List NodeT → Nat → NodeT → List NodeT
  | [], _, _ => []
  | _ :: xs, 0, v => v :: xs
  | x :: xs, n + 1, v => x :: setAt xs n v

/-- The `storage` class: node array, PI index list, output signals, and the
structural-hash index.  The hash map (keyed on the ordered fanin pair) is
modelled as an association list searched front to back; `create_and` checks
for absence before inserting, so the map never holds duplicate keys. -/
structure Storage where
  nodes : List NodeT
  inputs : List Nat
  outputs : List Signal
  hash : List ((Signal × Signal) × Nat)
deriving DecidableEq, Repr

/-- The `storage` constructor: a single constant-0 node. -/
def initStorage : Storage :=
  ⟨[defaultNode], [], [], []⟩

/-- Association-list lookup modelling `phmap::flat_hash_map::find` keyed on
the fanin pair. -/
def hfind : List ((Signal × Signal) × Nat) → (Signal × Signal) → Option Nat
  | [], _ => none
  | (q, i) :: rest, p => if q = p then some i else hfind rest p

def Storage.getNode (s : Storage) (n : Nat) : NodeT :=
  getAt s.nodes n

/-- `network::mark`: load of the node's mark word. -/
def Storage.markOf (s : Storage) (n : Nat) : Nat :=
  (s.getNode n).value

/-- Store to the node's mark word. -/
def Storage.setMark (s : Storage) (n : Nat) (v : Nat) : Storage :=
  { s with nodes := setAt s.nodes n { s.getNode n with value := v } }

/-- `network::is_constant`. -/
def is_constant (n : Nat) : Bool :=
  n == 0

/-- `network::is_pi`: both fanin slots hold the same raw data and that raw
data is below the number of inputs. -/
def is_pi (s : Storage) (n : Nat) : Bool :=
  (s.getNode n).fanin0.data == (s.getNode n).fanin1.data &&
    decide ((s.getNode n).fanin0.data < s.inputs.length)

/-- `network::get_constant`. -/
def get_constant (value : Bool) : Signal :=
  ⟨0, value⟩

/-- `network::fanin_size`. -/
def fanin_size (s : Storage) (n : Nat) : Nat :=
  if is_constant n || is_pi s n then 0 else 2

/-- `network::fanout_size`: the node's reference count. -/
def fanout_size (s : Storage) (n : Nat) : Nat :=
  (s.getNode n).refCount

/-- `network::check_and_mark`: return true if the mark already equals
`new_value`; else if it is zero, set it and return true; else fail. -/
def check_and_mark (s : Storage) (n : Nat) (new_value : Nat) : Bool × Storage :=
  let current := s.markOf n
  if current = new_value then (true, s)
  else if current = 0 then (true, s.setMark n new_value)
  else (false, s)

/-- `network::reset_mark`. -/
def reset_mark (s : Storage) (n : Nat) : Storage :=
  s.setMark n 0

/-- `network::create_pi`: append a fresh (value-initialized) node and record
its index in the input list. -/
def create_pi (s : Storage) : Signal × Storage :=
  let index := s.nodes.length
  (⟨index, false⟩,
    { s with nodes := s.nodes ++ [defaultNode], inputs := s.inputs ++ [index] })

/-- Increment the reference count of node `n` (a no-op out of range, where
the C++ would be undefined). -/
def bumpRef (s : Storage) (n : Nat) : Storage :=
  { s with nodes := setAt s.nodes n { s.getNode n with refCount := (s.getNode n).refCount + 1 } }

/-- `network::create_and`: order the fanins, apply the trivial rules, look
up the structural-hash index, otherwise append a new node, register it in
the hash, and bump the children's reference counts.  (The capacity-reserve
policy of the source only affects allocation, not the abstract state.) -/
def create_and (s : Storage) (a0 b0 : Signal) : Signal × Storage :=
  let a := if b0.index < a0.index then b0 else a0
  let b := if b0.index < a0.index then a0 else b0
  if a.index = b.index then
    (if a.complement = b.complement then a else get_constant false, s)
  else if a.index = 0 then
    (if a.complement then b else get_constant false, s)
  else
    match hfind s.hash (a, b) with
    | some i => (⟨i, false⟩, s)
    | none =>
        let index := s.nodes.length
        let nd : NodeT := ⟨a, b, 0, 0⟩
        let s1 : Storage :=
          { s with nodes := s.nodes ++ [nd], hash := ((a, b), index) :: s.hash }
        (⟨index, false⟩, bumpRef (bumpRef s1 a.index) b.index)

/-- `network::create_po`: append the output signal and bump the reference
count of the referenced node. -/
def create_po (s : Storage) (f : Signal) : Storage :=
  { bumpRef s f.index with outputs := (bumpRef s f.index).outputs ++ [⟨f.index, f.complement⟩] }

/-- One build-phase operation of the producer interface. -/
inductive BuildOp where
  | mkPi : BuildOp
  | mkAnd : Signal → Signal → BuildOp
  | mkPo : Signal → BuildOp
deriving DecidableEq, Repr

def applyOp (s : Storage) : BuildOp → Storage
  | .mkPi => (create_pi s).2
  | .mkAnd a b => (create_and s a b).2
  | .mkPo f => create_po s f

def buildFrom (s : Storage) (ops : List BuildOp) : Storage :=
  ops.foldl applyOp s

/-- The graph obtained by running a build sequence against a fresh storage. -/
def build (ops : List BuildOp) : Storage :=
  buildFrom initStorage ops

/-- Build-time validity: every signal handed to `create_and`/`create_po`
refers to an existing node (spec section 7 treats anything else as a fatal
programmer error). -/
def validOps : Storage → List BuildOp → Bool
  | _, [] => true
  | s, op :: rest =>
      (match op with
        | .mkPi => true
        | .mkAnd a b =>
            decide (a.index < s.nodes.length) && decide (b.index < s.nodes.length)
        | .mkPo f => decide (f.index < s.nodes.length)) &&
      validOps (applyOp s op) rest

/-! ### The cut engine (src/examples/gig/aig.cpp) -/

/-- `aig::trivial`: the cut consists solely of constants and PIs. -/
def trivialCut (s : Storage) (cut : List Nat) : Bool :=
  cut.all fun n => is_constant n || is_pi s n

/-- State threaded through one pass of `expand0`'s inner `for` loop:
the storage (marks evolve in place), the retained leaves (`kept`, in
order), the pending new leaves (`fresh`, the source's `new_cut_nodes`),
the running `is_trivial` and `cut_has_changed` flags, and the tracked
outcome of `assert( !aig.is_constant( *it ) )`. -/
structure Pass0State where
  store : Storage
  kept : List Nat
  fresh : List Nat
  triv : Bool
  changed : Bool
  cafail : Bool
deriving DecidableEq, Repr

/-- The `foreach_fanin` callback of `expand0`, folded over the (at most
two) fanins of `x`: the count of fanins already marked `t` and the last
unmarked fanin (`expansion_point`), in the source's assignment order
(fanin 0 first, fanin 1 overwriting). -/
def faninInfo (s : Storage) (t x : Nat) : Nat × Option Nat :=
  if x == 0 then (0, none)
  else
    let f0 := (s.getNode x).fanin0.index
    let f1 := (s.getNode x).fanin1.index
    let c0 : Nat × Option Nat :=
      if s.markOf f0 == t then (1, none) else (0, some f0)
    if s.markOf f1 == t then (c0.1 + 1, c0.2) else (c0.1, some f1)

/-- Process one leaf `x` of the cut, exactly as the body of `expand0`'s
inner loop: skip PIs; count the fanins already marked by `thread_id`,
remembering the last one outside; keep the leaf if two or more fanins are
outside; otherwise claim the outside fanin (keeping it only on success)
and erase the leaf unconditionally. -/
def step0 (t : Nat) (st : Pass0State) (x : Nat) : Pass0State :=
  let cafail := st.cafail || is_constant x
  if is_pi st.store x then
    { st with kept := st.kept ++ [x], cafail := cafail }
  else
    let cntEp := faninInfo st.store t x
    if cntEp.1 + 1 < fanin_size st.store x then
      { st with kept := st.kept ++ [x], triv := false, cafail := cafail }
    else
      match cntEp.2 with
      | some m =>
          let r := check_and_mark st.store m t
          { store := r.2, kept := st.kept,
            fresh := if r.1 then st.fresh ++ [m] else st.fresh,
            triv := false, changed := true, cafail := cafail }
      | none =>
          { st with triv := false, changed := true, cafail := cafail }

/-- One full pass of `expand0` over the current cut. -/
def pass0 (t : Nat) (s : Storage) (cut : List Nat) : Pass0State :=
  cut.foldl (step0 t) ⟨s, [], [], true, false, false⟩

/-- Result of `expand0`: final storage, final cut, the returned
`is_trivial` flag, and the tracked assertion outcome. -/
structure Exp0Result where
  store : Storage
  cut : List Nat
  triv : Bool
  cafail : Bool
deriving DecidableEq, Repr

/-- The fix-point loop of `expand0`, with fuel bounding the number of
passes.  On fuel exhaustion (which corresponds to the source loop still
running) the current state is returned with `triv = true`; the default
fuel below makes this unreachable for well-formed graphs. -/
def expand0Go (t : Nat) : Nat → Storage → List Nat → Bool → Exp0Result
  | 0, s, cut, af => ⟨s, cut, true, af⟩
  | fuel + 1, s, cut, af =>
      let st := pass0 t s cut
      let cut1 := st.kept ++ st.fresh
      let af1 := af || st.cafail
      if st.changed then expand0Go t fuel st.store cut1 af1
      else ⟨st.store, cut1, st.triv, af1⟩

/-- `aig::expand0`.  Each changed pass erases at least one leaf and every
claimed replacement was previously unmarked, so `|cut| + |nodes| + 1`
passes always reach the fix point on a well-formed graph. -/
def expand0 (s : Storage) (cut : List Nat) (t : Nat) : Exp0Result :=
  expand0Go t (cut.length + s.nodes.length + 1) s cut false

/-- `aig::evaluate_fanin`: bump the reference counter of `n` in the
candidate list, appending a fresh entry on first sight. -/
def evaluate_fanin (n : Nat) : List (Nat × Nat) → List (Nat × Nat)
  | [] => [(n, 1)]
  | (m, c) :: rest =>
      if m = n then (m, c + 1) :: rest else (m, c) :: evaluate_fanin n rest

/-- One leaf of the candidate-collection loop of `select_next_fanin`:
skip constants and PIs, otherwise record both fanins, constants excluded. -/
def collectStep (s : Storage) (cands : List (Nat × Nat)) (x : Nat) :
    List (Nat × Nat) :=
  if is_constant x || is_pi s x then cands
  else
    let f0 := (s.getNode x).fanin0.index
    let f1 := (s.getNode x).fanin1.index
    let c1 := if is_constant f0 then cands else evaluate_fanin f0 cands
    if is_constant f1 then c1 else evaluate_fanin f1 c1

/-- The candidate-collection loop of `select_next_fanin`: the fanins of
every non-constant non-PI leaf, constants excluded, counted by reference. -/
def collectCands (s : Storage) (cut : List Nat) : List (Nat × Nat) :=
  cut.foldl (collectStep s) []

/-- The selection loop of `select_next_fanin`: highest reference count,
ties broken by highest `fanout_size`, further ties by first-seen order. -/
def pickBest (s : Storage) : List (Nat × Nat) → Nat × Nat → Nat × Nat
  | [], best => best
  | c :: rest, best =>
      pickBest s rest
        (if best.2 < c.2 ∨ (c.2 = best.2 ∧ fanout_size s best.1 < fanout_size s c.1)
         then c else best)

/-- `aig::select_next_fanin`.  The source asserts that the candidate list
is non-empty (precondition: the cut is not trivial); the model returns the
never-selected sentinel `0` in that case. -/
def select_next_fanin (s : Storage) (cut : List Nat) : Nat :=
  match collectCands s cut with
  | [] => 0
  | c :: rest => (pickBest s rest c).1

/-- The while loop of `expand`: state is the storage, the cut, the
`best_cut` optional, the `trivial_cut` flag, and the oversize-iteration
counter; `caf` accumulates `expand0`'s tracked assertion flag.  The result
records whether the loop exited through its own condition (`exited`) or
ran out of fuel — the latter corresponds to the source loop never
terminating within that many iterations. -/
def expandGo (t limit : Nat) :
    Nat → Storage → List Nat → Option (List Nat) → Bool → Nat → Bool →
    Storage × List Nat × Option (List Nat) × Bool × Bool
  | 0, s, cut, best, _, _, caf => (s, cut, best, caf, false)
  | fuel + 1, s, cut, best, trivB, iters, caf =>
      if !trivB && (decide (cut.length ≤ limit) || decide (iters < 5)) then
        let m := select_next_fanin s cut
        let r := check_and_mark s m t
        let cut1 := if r.1 then cut ++ [m] else cut
        let e := expand0 r.2 cut1 t
        let iters1 := if limit < e.cut.length then iters + 1 else 0
        let best1 :=
          if decide (e.cut.length ≤ limit) &&
             (best.isNone || decide ((best.getD []).length ≤ limit))
          then some e.cut else best
        expandGo t limit fuel e.store e.cut best1 e.triv iters1 (caf || e.cafail)
      else (s, cut, best, caf, true)

/-- Result of `expand` (and of `create_cut`): the final storage and cut,
the tracked `expand0` assertion flag, whether the empty `best_cut`
optional was written through (`optDeref`, the source's undefined
behaviour), and whether the while loop exited by its own condition. -/
structure ExpResult where
  store : Storage
  cut : List Nat
  cafail : Bool
  optDeref : Bool
  exited : Bool
deriving DecidableEq, Repr

/-- `aig::expand` with `MAX_ITERATIONS = 5`.  After the loop, the cut is
replaced by `best_cut` whenever the optional is engaged. -/
def expand (s : Storage) (cut : List Nat) (limit t : Nat) : ExpResult :=
  let r0 := expand0 s cut t
  if r0.triv then ⟨r0.store, r0.cut, r0.cafail, false, true⟩
  else
    let optDeref := decide (r0.cut.length ≤ limit)
    let r := expandGo t limit (s.nodes.length + 2) r0.store r0.cut none false 0 r0.cafail
    let final := match r.2.2.1 with
      | some b => b
      | none => r.2.1
    ⟨r.1, final, r.2.2.2.1, optDeref, r.2.2.2.2⟩

/-- `aig::create_cut`: claim the node (an empty cut signals denial), seed
the cut with it, and expand with size limit 6. -/
def create_cut (s : Storage) (n : Nat) (t : Nat) : ExpResult :=
  let r := check_and_mark s n t
  if !r.1 then ⟨r.2, [], false, false, true⟩
  else expand r.2 [n] 6 t

/-- The recursion of `aig::release_cut` with explicit fuel: clear the mark
if owned, then recurse into the fanins.  For an acyclic graph the fanin
indices strictly decrease, so fuel `n + 1` covers the whole recursion. -/
def releaseGo (t : Nat) : Nat → Storage → Nat → Storage
  | 0, s, _ => s
  | fuel + 1, s, n =>
      if s.markOf n ≠ t then s
      else
        let s1 := reset_mark s n
        if is_constant n || is_pi s1 n then s1
        else
          let f0 := (s1.getNode n).fanin0.index
          let f1 := (s1.getNode n).fanin1.index
          releaseGo t fuel (releaseGo t fuel s1 f0) f1

/-- `aig::release_cut` (the `cut` argument is unused in the source too). -/
def release_cut (s : Storage) (n : Nat) (cut : List Nat) (t : Nat) : Storage :=
  releaseGo t (n + 1) s n

/-- Both fanin slots hold the zero signal — the state of value-initialized
nodes, i.e. the constant node and the PI nodes. -/
def bothZero (s : Storage) (i : Nat) : Prop :=
  (s.getNode i).fanin0 = ⟨0, false⟩ ∧ (s.getNode i).fanin1 = ⟨0, false⟩

instance (s : Storage) (i : Nat) : Decidable (bothZero s i) := by
  unfold bothZero; infer_instance

/-- Invariant of every storage reachable from `initStorage` by build
operations: nonempty node array; input indices are positive and in range;
a node's fanins are both zero exactly for the constant node and the PIs;
AND nodes carry a strictly ordered non-constant fanin pair; the hash index
is sound (every entry points at the node carrying its key) and complete
(every AND node is registered under its fanin pair); all marks are zero. -/
structure BuildInv (s : Storage) : Prop where
  len_pos : 0 < s.nodes.length
  inputs_mem : ∀ i ∈ s.inputs, 0 < i ∧ i < s.nodes.length
  zero_iff : ∀ i, i < s.nodes.length → (bothZero s i ↔ i = 0 ∨ i ∈ s.inputs)
  and_ord : ∀ i, i < s.nodes.length → ¬ bothZero s i →
      0 < (s.getNode i).fanin0.index ∧
        (s.getNode i).fanin0.index < (s.getNode i).fanin1.index
  hash_sound : ∀ p j, hfind s.hash p = some j →
      j < s.nodes.length ∧ ((s.getNode j).fanin0, (s.getNode j).fanin1) = p
  hash_complete : ∀ i, i < s.nodes.length → ¬ bothZero s i →
      hfind s.hash ((s.getNode i).fanin0, (s.getNode i).fanin1) = some i
  marks_zero : ∀ v, s.markOf v = 0

/-- Fanin well-formedness: every node's fanin indices are in range.  This
needs build-time validity (`validOps`); the build invariant alone does not
bound the fanins of nodes created from garbage signals. -/
def WFStore (s : Storage) : Prop :=
  ∀ i, i < s.nodes.length →
    (s.getNode i).fanin0.index < s.nodes.length ∧
    (s.getNode i).fanin1.index < s.nodes.length

/-- `K` consecutive `create_pi` calls. -/
def pis (K : Nat) : List BuildOp := List.replicate K BuildOp.mkPi

/-- The tail of the build contains no further `create_pi`. -/
def noPiOps : List BuildOp → Bool
  | [] => true
  | BuildOp.mkPi :: _ => false
  | _ :: rest => noPiOps rest

/-- One fanin edge: from a non-constant non-PI node to one of its fanins. -/
def stepTo (s : Storage) (u v : Nat) : Prop :=
  u ≠ 0 ∧ is_pi s u = false ∧
    ((s.getNode u).fanin0.index = v ∨ (s.getNode u).fanin1.index = v)

instance (s : Storage) (u v : Nat) : Decidable (stepTo s u v) := by
  unfold stepTo; infer_instance

/-- `PathTo s n p`: `p` is a non-empty fanin-path starting at `n`. -/
inductive PathTo (s : Storage) : Nat → List Nat → Prop
  | single (n : Nat) : PathTo s n [n]
  | cons {u v : Nat} {p : List Nat} :
      stepTo s u v → PathTo s v p → PathTo s u (u :: p)

/-- The path ends at a node satisfying `is_pi`. -/
def EndsAtPi (s : Storage) (p : List Nat) : Prop :=
  ∃ e, p.getLast? = some e ∧ is_pi s e = true

/-- `Reach s n v`: `v` lies in the transitive fanin (or equals `n`). -/
inductive Reach (s : Storage) : Nat → Nat → Prop
  | refl (n : Nat) : Reach s n n
  | tail {u v w : Nat} : stepTo s u v → Reach s v w → Reach s u w

structure MarkOnly (s s1 : Storage) : Prop where
  len_eq : s1.nodes.length = s.nodes.length
  inputs_eq : s1.inputs = s.inputs
  fanin0_eq : ∀ v, (s1.getNode v).fanin0 = (s.getNode v).fanin0
  fanin1_eq : ∀ v, (s1.getNode v).fanin1 = (s.getNode v).fanin1

/-- Marks are monotone towards `t` during expansion: once a node carries
the caller's id it keeps it (the engine never resets inside `expand`). -/
def MarkMono (t : Nat) (s s1 : Storage) : Prop :=
  ∀ v, s.markOf v = t → s1.markOf v = t

/-- `C` covers `n`: every fanin path from `n` that ends at a PI meets `C`. -/
def Covers (s0 : Storage) (n : Nat) (C : List Nat) : Prop :=
  ∀ p, PathTo s0 n p → EndsAtPi s0 p → ∃ v, v ∈ p ∧ v ∈ C

/-- The invariant tying the evolving `(storage, cut)` pair of the cut
engine to the frozen base graph `s0`, root `n` and thread id `t`:
the storage differs from `s0` only in marks; the root is claimed; all cut
members are claimed, reachable from the root, and in range; every non-zero
mark is `t`; every claimed node outside the cut is a non-PI all of whose
fanin edges lead to claimed nodes (so walks from claimed nodes cannot
escape without crossing the cut); and (for a non-constant root) the
constant node is never claimed. -/
structure CInv (s0 : Storage) (n t : Nat) (s : Storage) (cut : List Nat) : Prop where
  mo : MarkOnly s0 s
  root_marked : s.markOf n = t
  mem_marked : ∀ v ∈ cut, s.markOf v = t
  mem_reach : ∀ v ∈ cut, Reach s0 n v
  mem_lt : ∀ v ∈ cut, v < s0.nodes.length
  marks_sub : ∀ v, s.markOf v ≠ 0 → s.markOf v = t
  closed : ∀ v, s.markOf v = t → v ∉ cut →
      is_pi s0 v = false ∧ ∀ w, stepTo s0 v w → s.markOf w = t
  const_zero : n ≠ 0 → s.markOf 0 = 0

/-! ### Concrete fixtures

`ops6` is the graph of the source's `test()` function
(`x0,x1,x2; n3 = x0∧x1; n4 = x1∧x2; n5 = n3∧n4; po n5`); `ops3` is its
lower-left corner (`x0,x1; n3 = x0∧x1`). -/

def ops6 : List BuildOp :=
  [.mkPi, .mkPi, .mkPi,
   .mkAnd ⟨1, false⟩ ⟨2, false⟩,
   .mkAnd ⟨2, false⟩ ⟨3, false⟩,
   .mkAnd ⟨4, false⟩ ⟨5, false⟩,
   .mkPo ⟨6, false⟩]

def ops3 : List BuildOp :=
  [.mkPi, .mkPi, .mkAnd ⟨1, false⟩ ⟨2, false⟩]

/-- `ops3`'s graph with node `x1` (index 2) claimed by thread 2 and nodes
`n3`, `x0` claimed by thread 1: the state of `expand0`'s inner loop right
after thread 1 pushed `x0` while thread 2 holds `x1`. -/
def claimFailStore : Storage :=
  (((build ops3).setMark 2 2).setMark 3 1).setMark 1 1

/-- `ops3`'s graph with a stale mark of thread 1 left on `x0` (index 1). -/
def staleMarkStore : Storage :=
  (build ops3).setMark 1 1

/-- `ops3`'s graph with both PIs claimed by thread 2. -/
def livelockInput : Storage :=
  ((build ops3).setMark 1 2).setMark 2 2

/-- `livelockInput` after thread 1 claimed the root `n3` (index 3): the
state in which `expand`'s while loop runs. -/
def livelockStore : Storage :=
  livelockInput.setMark 3 1

/-! ### Basic lemmas about node-array access -/

theorem length_setAt (l : List NodeT) (n : Nat) (v : NodeT) :
    (setAt l n v).length = l.length := by
  induction l generalizing n with
  | nil => rfl
  | cons x xs ih =>
    cases n with
    | zero => rfl
    | succ m => simpa [setAt] using ih m

theorem getAt_setAt_self (l : List NodeT) (n : Nat) (v : NodeT)
    (h : n < l.length) : getAt (setAt l n v) n = v := by
  induction l generalizing n with
  | nil => simp at h
  | cons x xs ih =>
    cases n with
    | zero => rfl
    | succ m =>
      simp only [List.length_cons, Nat.succ_lt_succ_iff] at h
      simpa [setAt, getAt] using ih m h

theorem getAt_setAt_ne (l : List NodeT) (n m : Nat) (v : NodeT)
    (h : m ≠ n) : getAt (setAt l n v) m = getAt l m := by
  induction l generalizing n m with
  | nil => rfl
  | cons x xs ih =>
    cases n with
    | zero =>
      cases m with
      | zero => exact absurd rfl h
      | succ k => rfl
    | succ n0 =>
      cases m with
      | zero => rfl
      | succ k =>
        simpa [setAt, getAt] using ih n0 k (by omega)

theorem getAt_append_lt (l l2 : List NodeT) (n : Nat) (h : n < l.length) :
    getAt (l ++ l2) n = getAt l n := by
  induction l generalizing n with
  | nil => simp at h
  | cons x xs ih =>
    cases n with
    | zero => rfl
    | succ m =>
      simp only [List.length_cons, Nat.succ_lt_succ_iff] at h
      simpa [getAt] using ih m h

theorem getAt_append_len (l : List NodeT) (v : NodeT) :
    getAt (l ++ [v]) l.length = v := by
  induction l with
  | nil => rfl
  | cons x xs ih => simpa [getAt] using ih

theorem setAt_of_le (l : List NodeT) (n : Nat) (v : NodeT) (h : l.length ≤ n) :
    setAt l n v = l := by
  induction l generalizing n with
  | nil => rfl
  | cons x xs ih =>
    cases n with
    | zero => simp at h
    | succ m =>
      simp only [List.length_cons, Nat.succ_le_succ_iff] at h
      simpa [setAt] using ih m h

theorem getAt_of_le (l : List NodeT) (n : Nat) (h : l.length ≤ n) :
    getAt l n = defaultNode := by
  induction l generalizing n with
  | nil => rfl
  | cons x xs ih =>
    cases n with
    | zero => simp at h
    | succ m =>
      simp only [List.length_cons, Nat.succ_le_succ_iff] at h
      simpa [getAt] using ih m h

/-! ### Lemmas about marks -/

theorem Storage.length_setMark (s : Storage) (n v : Nat) :
    (s.setMark n v).nodes.length = s.nodes.length := by
  simp [Storage.setMark, length_setAt]

theorem Storage.markOf_setMark_self (s : Storage) (n v : Nat)
    (h : n < s.nodes.length) : (s.setMark n v).markOf n = v := by
  simp [Storage.setMark, Storage.markOf, Storage.getNode, getAt_setAt_self _ _ _ h]

theorem Storage.markOf_setMark_ne (s : Storage) (n m v : Nat) (h : m ≠ n) :
    (s.setMark n v).markOf m = s.markOf m := by
  simp [Storage.setMark, Storage.markOf, Storage.getNode, getAt_setAt_ne _ _ _ _ h]

theorem Storage.markOf_of_le (s : Storage) (n : Nat) (h : s.nodes.length ≤ n) :
    s.markOf n = 0 := by
  simp [Storage.markOf, Storage.getNode, getAt_of_le _ _ h, defaultNode]

theorem Storage.markOf_setMark (s : Storage) (n m v : Nat) (h : n < s.nodes.length) :
    (s.setMark n v).markOf m = if m = n then v else s.markOf m := by
  by_cases hm : m = n
  · subst hm; simp [Storage.markOf_setMark_self _ _ _ h]
  · simp [hm, Storage.markOf_setMark_ne _ _ _ _ hm]

theorem Storage.getNode_setMark_fanin0 (s : Storage) (n v m : Nat) :
    ((s.setMark n v).getNode m).fanin0 = (s.getNode m).fanin0 := by
  by_cases hm : m = n
  · subst hm
    by_cases h : m < s.nodes.length
    · simp [Storage.setMark, Storage.getNode, getAt_setAt_self _ _ _ h]
    · simp [Storage.setMark, Storage.getNode, setAt_of_le _ _ _ (Nat.le_of_not_lt h)]
  · simp [Storage.setMark, Storage.getNode, getAt_setAt_ne _ _ _ _ hm]

theorem Storage.getNode_setMark_fanin1 (s : Storage) (n v m : Nat) :
    ((s.setMark n v).getNode m).fanin1 = (s.getNode m).fanin1 := by
  by_cases hm : m = n
  · subst hm
    by_cases h : m < s.nodes.length
    · simp [Storage.setMark, Storage.getNode, getAt_setAt_self _ _ _ h]
    · simp [Storage.setMark, Storage.getNode, setAt_of_le _ _ _ (Nat.le_of_not_lt h)]
  · simp [Storage.setMark, Storage.getNode, getAt_setAt_ne _ _ _ _ hm]

theorem Storage.getNode_setMark_refCount (s : Storage) (n v m : Nat) :
    ((s.setMark n v).getNode m).refCount = (s.getNode m).refCount := by
  by_cases hm : m = n
  · subst hm
    by_cases h : m < s.nodes.length
    · simp [Storage.setMark, Storage.getNode, getAt_setAt_self _ _ _ h]
    · simp [Storage.setMark, Storage.getNode, setAt_of_le _ _ _ (Nat.le_of_not_lt h)]
  · simp [Storage.setMark, Storage.getNode, getAt_setAt_ne _ _ _ _ hm]

theorem Storage.inputs_setMark (s : Storage) (n v : Nat) :
    (s.setMark n v).inputs = s.inputs := rfl

/-! ### Lemmas about the build-phase operations -/

theorem length_bumpRef (s : Storage) (n : Nat) :
    (bumpRef s n).nodes.length = s.nodes.length := by
  simp [bumpRef, length_setAt]

theorem getNode_bumpRef_fanin0 (s : Storage) (n m : Nat) :
    ((bumpRef s n).getNode m).fanin0 = (s.getNode m).fanin0 := by
  by_cases hm : m = n
  · subst hm
    by_cases h : m < s.nodes.length
    · simp [bumpRef, Storage.getNode, getAt_setAt_self _ _ _ h]
    · simp [bumpRef, Storage.getNode, setAt_of_le _ _ _ (Nat.le_of_not_lt h)]
  · simp [bumpRef, Storage.getNode, getAt_setAt_ne _ _ _ _ hm]

theorem getNode_bumpRef_fanin1 (s : Storage) (n m : Nat) :
    ((bumpRef s n).getNode m).fanin1 = (s.getNode m).fanin1 := by
  by_cases hm : m = n
  · subst hm
    by_cases h : m < s.nodes.length
    · simp [bumpRef, Storage.getNode, getAt_setAt_self _ _ _ h]
    · simp [bumpRef, Storage.getNode, setAt_of_le _ _ _ (Nat.le_of_not_lt h)]
  · simp [bumpRef, Storage.getNode, getAt_setAt_ne _ _ _ _ hm]

theorem markOf_bumpRef (s : Storage) (n m : Nat) :
    (bumpRef s n).markOf m = s.markOf m := by
  by_cases hm : m = n
  · subst hm
    by_cases h : m < s.nodes.length
    · simp [bumpRef, Storage.markOf, Storage.getNode, getAt_setAt_self _ _ _ h]
    · simp [bumpRef, Storage.markOf, Storage.getNode,
        setAt_of_le _ _ _ (Nat.le_of_not_lt h)]
  · simp [bumpRef, Storage.markOf, Storage.getNode, getAt_setAt_ne _ _ _ _ hm]

theorem inputs_bumpRef (s : Storage) (n : Nat) : (bumpRef s n).inputs = s.inputs := rfl

theorem hash_bumpRef (s : Storage) (n : Nat) : (bumpRef s n).hash = s.hash := rfl

/-- Case analysis of `create_and`: either the storage is untouched (trivial
rule or structural-hash hit), or a fresh node with the normalized, strictly
ordered, non-constant fanin pair is appended and registered. -/
theorem create_and_cases (s : Storage) (a0 b0 : Signal) :
    (create_and s a0 b0).2 = s ∨
    ∃ a b : Signal,
      ((a = a0 ∧ b = b0) ∨ (a = b0 ∧ b = a0)) ∧
      0 < a.index ∧ a.index < b.index ∧
      hfind s.hash (a, b) = none ∧
      (create_and s a0 b0).2 =
        bumpRef (bumpRef
          { s with nodes := s.nodes ++ [⟨a, b, 0, 0⟩],
                   hash := ((a, b), s.nodes.length) :: s.hash } a.index) b.index := by
  unfold create_and
  set a := if b0.index < a0.index then b0 else a0 with ha
  set b := if b0.index < a0.index then a0 else b0 with hb
  have hab : (a = a0 ∧ b = b0) ∨ (a = b0 ∧ b = a0) := by
    by_cases h : b0.index < a0.index
    · right; rw [ha, hb]; simp [h]
    · left; rw [ha, hb]; simp [h]
  have hle : a.index ≤ b.index := by
    by_cases h : b0.index < a0.index
    · rw [ha, hb]; simp [h]; omega
    · rw [ha, hb]; simp [h]; omega
  by_cases h1 : a.index = b.index
  · left; simp [h1]
  · by_cases h2 : a.index = 0
    · left
      simp [h1, h2]
      split_ifs <;> rfl
    · cases hh : hfind s.hash (a, b) with
      | some i => left; simp [h1, h2, hh]
      | none =>
          right
          refine ⟨a, b, hab, by omega, by omega, hh, ?_⟩
          simp [h1, h2, hh]

theorem create_po_nodes (s : Storage) (f : Signal) :
    (create_po s f).nodes = (bumpRef s f.index).nodes := rfl

theorem create_po_inputs (s : Storage) (f : Signal) :
    (create_po s f).inputs = s.inputs := rfl

theorem create_po_hash (s : Storage) (f : Signal) :
    (create_po s f).hash = s.hash := rfl

/-! ### The build-phase invariant -/

theorem bothZero_congr (s s1 : Storage) (i : Nat)
    (h0 : (s1.getNode i).fanin0 = (s.getNode i).fanin0)
    (h1 : (s1.getNode i).fanin1 = (s.getNode i).fanin1) :
    bothZero s1 i ↔ bothZero s i := by
  unfold bothZero; rw [h0, h1]

theorem buildInv_init : BuildInv initStorage := by
  refine ⟨Nat.one_pos, ?_, ?_, ?_, ?_, ?_, ?_⟩
  · intro i hi; simp [initStorage] at hi
  · intro i hi
    have h0 : i = 0 := by simpa [initStorage] using hi
    subst h0
    exact ⟨fun _ => Or.inl rfl, fun _ => ⟨rfl, rfl⟩⟩
  · intro i hi hz
    have h0 : i = 0 := by simpa [initStorage] using hi
    subst h0
    exact absurd ⟨rfl, rfl⟩ hz
  · intro p j hj; simp [initStorage, hfind] at hj
  · intro i hi hz
    have h0 : i = 0 := by simpa [initStorage] using hi
    subst h0
    exact absurd ⟨rfl, rfl⟩ hz
  · intro v
    cases v with
    | zero => rfl
    | succ m => rfl

theorem buildInv_create_pi (s : Storage) (h : BuildInv s) :
    BuildInv (create_pi s).2 := by
  have hnodes : (create_pi s).2.nodes = s.nodes ++ [defaultNode] := rfl
  have hinputs : (create_pi s).2.inputs = s.inputs ++ [s.nodes.length] := rfl
  have hhash : (create_pi s).2.hash = s.hash := rfl
  have hlen : (create_pi s).2.nodes.length = s.nodes.length + 1 := by
    simp [hnodes]
  have hget_lt : ∀ i, i < s.nodes.length →
      (create_pi s).2.getNode i = s.getNode i := by
    intro i hi
    simp [Storage.getNode, hnodes, getAt_append_lt _ _ _ hi]
  have hget_len : (create_pi s).2.getNode s.nodes.length = defaultNode := by
    simp [Storage.getNode, hnodes, getAt_append_len]
  have hziff : ∀ i, i < s.nodes.length →
      (bothZero (create_pi s).2 i ↔ bothZero s i) := by
    intro i hi
    unfold bothZero
    rw [hget_lt i hi]
  have hzlen : bothZero (create_pi s).2 s.nodes.length := by
    constructor <;> simp [hget_len, defaultNode]
  refine ⟨?_, ?_, ?_, ?_, ?_, ?_, ?_⟩
  · omega
  · intro i hi
    rw [hinputs] at hi
    rcases List.mem_append.mp hi with hi | hi
    · have := h.inputs_mem i hi; omega
    · have : i = s.nodes.length := by simpa using hi
      subst this
      exact ⟨h.len_pos, by omega⟩
  · intro i hi
    rw [hlen] at hi
    rcases Nat.lt_succ_iff_lt_or_eq.mp hi with hi | hi
    · rw [hziff i hi, h.zero_iff i hi, hinputs]
      constructor
      · rintro (h0 | h0)
        · exact Or.inl h0
        · exact Or.inr (List.mem_append.mpr (Or.inl h0))
      · rintro (h0 | h0)
        · exact Or.inl h0
        · rcases List.mem_append.mp h0 with h0 | h0
          · exact Or.inr h0
          · have : i = s.nodes.length := by simpa using h0
            omega
    · subst hi
      constructor
      · intro _
        refine Or.inr ?_
        rw [hinputs]
        exact List.mem_append.mpr (Or.inr (by simp))
      · intro _
        exact hzlen
  · intro i hi hz
    rw [hlen] at hi
    rcases Nat.lt_succ_iff_lt_or_eq.mp hi with hi | hi
    · rw [hget_lt i hi]
      exact h.and_ord i hi fun hc => hz ((hziff i hi).mpr hc)
    · subst hi
      exact absurd hzlen hz
  · intro p j hj
    rw [hhash] at hj
    obtain ⟨hjl, hf⟩ := h.hash_sound p j hj
    rw [hget_lt j hjl]
    exact ⟨by omega, hf⟩
  · intro i hi hz
    rw [hlen] at hi
    rcases Nat.lt_succ_iff_lt_or_eq.mp hi with hi | hi
    · rw [hhash, hget_lt i hi]
      exact h.hash_complete i hi fun hc => hz ((hziff i hi).mpr hc)
    · subst hi
      exact absurd hzlen hz
  · intro v
    have hv : (create_pi s).2.markOf v = (getAt (s.nodes ++ [defaultNode]) v).value := by
      simp [Storage.markOf, Storage.getNode, hnodes]
    rcases Nat.lt_trichotomy v s.nodes.length with hlt | heq | hgt
    · rw [hv, getAt_append_lt _ _ _ hlt]
      exact h.marks_zero v
    · subst heq
      rw [hv, getAt_append_len]
      rfl
    · rw [hv, getAt_of_le]
      · rfl
      · simp; omega

theorem buildInv_create_po (s : Storage) (f : Signal) (h : BuildInv s) :
    BuildInv (create_po s f) := by
  have hget0 : ∀ i, ((create_po s f).getNode i).fanin0 = (s.getNode i).fanin0 := by
    intro i
    show ((bumpRef s f.index).getNode i).fanin0 = _
    exact getNode_bumpRef_fanin0 s f.index i
  have hget1 : ∀ i, ((create_po s f).getNode i).fanin1 = (s.getNode i).fanin1 := by
    intro i
    show ((bumpRef s f.index).getNode i).fanin1 = _
    exact getNode_bumpRef_fanin1 s f.index i
  have hlen : (create_po s f).nodes.length = s.nodes.length := by
    show (bumpRef s f.index).nodes.length = _
    exact length_bumpRef s f.index
  have hmark : ∀ v, (create_po s f).markOf v = s.markOf v := by
    intro v
    show (bumpRef s f.index).markOf v = _
    exact markOf_bumpRef s f.index v
  have hz : ∀ i, bothZero (create_po s f) i ↔ bothZero s i := fun i =>
    bothZero_congr s _ i (hget0 i) (hget1 i)
  refine ⟨?_, ?_, ?_, ?_, ?_, ?_, ?_⟩
  · rw [hlen]; exact h.len_pos
  · intro i hi
    rw [hlen]
    exact h.inputs_mem i (by simpa [create_po_inputs] using hi)
  · intro i hi
    rw [hlen] at hi
    rw [hz i, create_po_inputs]
    exact h.zero_iff i hi
  · intro i hi hzi
    rw [hlen] at hi
    rw [hget0 i, hget1 i]
    exact h.and_ord i hi fun hc => hzi ((hz i).mpr hc)
  · intro p j hj
    rw [create_po_hash] at hj
    obtain ⟨hjl, hf⟩ := h.hash_sound p j hj
    rw [hlen, hget0 j, hget1 j]
    exact ⟨hjl, hf⟩
  · intro i hi hzi
    rw [hlen] at hi
    rw [create_po_hash, hget0 i, hget1 i]
    exact h.hash_complete i hi fun hc => hzi ((hz i).mpr hc)
  · intro v
    rw [hmark v]
    exact h.marks_zero v

theorem buildInv_create_and (s : Storage) (a0 b0 : Signal) (h : BuildInv s) :
    BuildInv (create_and s a0 b0).2 := by
  rcases create_and_cases s a0 b0 with heq | ⟨a, b, _, ha0, hab, hnone, heq⟩
  · rw [heq]; exact h
  · set L := s.nodes.length with hL
    set s1 : Storage :=
      { s with nodes := s.nodes ++ [⟨a, b, 0, 0⟩],
               hash := ((a, b), L) :: s.hash } with hs1
    have hget0 : ∀ i, ((create_and s a0 b0).2.getNode i).fanin0 = (s1.getNode i).fanin0 := by
      intro i
      rw [heq, getNode_bumpRef_fanin0, getNode_bumpRef_fanin0]
    have hget1 : ∀ i, ((create_and s a0 b0).2.getNode i).fanin1 = (s1.getNode i).fanin1 := by
      intro i
      rw [heq, getNode_bumpRef_fanin1, getNode_bumpRef_fanin1]
    have hs1get_lt : ∀ i, i < L → s1.getNode i = s.getNode i := by
      intro i hi
      simp only [hs1, Storage.getNode]
      exact getAt_append_lt _ _ _ hi
    have hs1get_len : s1.getNode L = ⟨a, b, 0, 0⟩ := by
      simp only [hs1, Storage.getNode]
      exact getAt_append_len _ _
    have hlen : (create_and s a0 b0).2.nodes.length = L + 1 := by
      rw [heq, length_bumpRef, length_bumpRef]
      simp [hs1]
    have hinputs : (create_and s a0 b0).2.inputs = s.inputs := by
      rw [heq, inputs_bumpRef, inputs_bumpRef]
    have hhash : (create_and s a0 b0).2.hash = ((a, b), L) :: s.hash := by
      rw [heq, hash_bumpRef, hash_bumpRef]
    have hziff : ∀ i, i < L → (bothZero (create_and s a0 b0).2 i ↔ bothZero s i) := by
      intro i hi
      unfold bothZero
      rw [hget0 i, hget1 i, hs1get_lt i hi]
    have hznew : ¬ bothZero (create_and s a0 b0).2 L := by
      rintro ⟨h0, _⟩
      rw [hget0 L, hs1get_len] at h0
      have hidx : a.index = 0 := by simpa using congrArg Signal.index h0
      omega
    have hmark : ∀ v, (create_and s a0 b0).2.markOf v = 0 := by
      intro v
      have hv : (create_and s a0 b0).2.markOf v = s1.markOf v := by
        rw [heq]
        show (bumpRef (bumpRef s1 a.index) b.index).markOf v = _
        rw [markOf_bumpRef, markOf_bumpRef]
      rw [hv]
      show (s1.getNode v).value = 0
      have hlen1 : s1.nodes.length = L + 1 := by simp [hs1]
      rcases Nat.lt_trichotomy v L with hlt | hveq | hgt
      · rw [hs1get_lt v hlt]
        exact h.marks_zero v
      · rw [hveq, hs1get_len]
      · show (getAt s1.nodes v).value = 0
        rw [getAt_of_le _ _ (by rw [hlen1]; omega)]
        rfl
    refine ⟨by omega, ?_, ?_, ?_, ?_, ?_, hmark⟩
    · intro i hi
      rw [hinputs] at hi
      have := h.inputs_mem i hi
      omega
    · intro i hi
      rw [hlen] at hi
      rcases Nat.lt_succ_iff_lt_or_eq.mp hi with hi | hi
      · rw [hziff i hi, h.zero_iff i hi, hinputs]
      · subst hi
        rw [hinputs]
        constructor
        · intro hc; exact absurd hc hznew
        · rintro (hc | hc)
          · exact absurd hc (by have := h.len_pos; omega)
          · exact ((by have := h.inputs_mem _ hc; omega : False)).elim
    · intro i hi hz
      rw [hlen] at hi
      rw [hget0 i, hget1 i]
      rcases Nat.lt_succ_iff_lt_or_eq.mp hi with hi | hi
      · rw [hs1get_lt i hi]
        exact h.and_ord i hi fun hc => hz ((hziff i hi).mpr hc)
      · subst hi
        rw [hs1get_len]
        exact ⟨ha0, hab⟩
    · intro p j hj
      rw [hhash] at hj
      unfold hfind at hj
      by_cases hp : ((a, b) : Signal × Signal) = p
      · rw [if_pos hp] at hj
        cases hj
        refine ⟨by omega, ?_⟩
        rw [hget0, hget1, hs1get_len, ← hp]
      · rw [if_neg hp] at hj
        obtain ⟨hjl, hf⟩ := h.hash_sound p j hj
        rw [hget0, hget1, hs1get_lt j hjl]
        exact ⟨by omega, hf⟩
    · intro i hi hz
      rw [hlen] at hi
      rw [hhash, hget0 i, hget1 i]
      rcases Nat.lt_succ_iff_lt_or_eq.mp hi with hi | hi
      · rw [hs1get_lt i hi]
        have hold := h.hash_complete i hi fun hc => hz ((hziff i hi).mpr hc)
        unfold hfind
        rw [if_neg]
        · exact hold
        · intro hc
          rw [hc] at hnone
          rw [hold] at hnone
          cases hnone
      · subst hi
        rw [hs1get_len]
        unfold hfind
        rw [if_pos rfl]

theorem buildInv_applyOp (s : Storage) (op : BuildOp) (h : BuildInv s) :
    BuildInv (applyOp s op) :=
  match op with
  | .mkPi => buildInv_create_pi s h
  | .mkAnd a b => buildInv_create_and s a b h
  | .mkPo f => buildInv_create_po s f h

theorem buildInv_buildFrom (ops : List BuildOp) :
    ∀ s, BuildInv s → BuildInv (buildFrom s ops) := by
  induction ops with
  | nil => intro s h; exact h
  | cons op rest ih =>
      intro s h
      exact ih (applyOp s op) (buildInv_applyOp s op h)

theorem buildInv_build (ops : List BuildOp) : BuildInv (build ops) :=
  buildInv_buildFrom ops initStorage buildInv_init

theorem wf_init : WFStore initStorage := by
  intro i hi
  have h0 : i = 0 := by simpa [initStorage] using hi
  subst h0
  exact ⟨Nat.one_pos, Nat.one_pos⟩

theorem wf_applyOp (s : Storage) (op : BuildOp) (hwf : WFStore s)
    (hv : (match op with
      | .mkPi => true
      | .mkAnd a b =>
          decide (a.index < s.nodes.length) && decide (b.index < s.nodes.length)
      | .mkPo f => decide (f.index < s.nodes.length)) = true) :
    WFStore (applyOp s op) := by
  cases op with
  | mkPi =>
      show WFStore (create_pi s).2
      intro i hi
      have hlen : (create_pi s).2.nodes.length = s.nodes.length + 1 := by
        show (s.nodes ++ [defaultNode]).length = _
        simp
      rw [hlen] at hi ⊢
      rcases Nat.lt_succ_iff_lt_or_eq.mp hi with hi | hi
      · have hg : (create_pi s).2.getNode i = s.getNode i := by
          show getAt (s.nodes ++ [defaultNode]) i = _
          exact getAt_append_lt _ _ _ hi
        rw [hg]
        have := hwf i hi
        omega
      · subst hi
        have hg : (create_pi s).2.getNode s.nodes.length = defaultNode := by
          show getAt (s.nodes ++ [defaultNode]) s.nodes.length = _
          exact getAt_append_len _ _
        rw [hg]
        exact ⟨by show (0 : Nat) < s.nodes.length + 1; omega,
          by show (0 : Nat) < s.nodes.length + 1; omega⟩
  | mkAnd a0 b0 =>
      simp only [Bool.and_eq_true, decide_eq_true_eq] at hv
      show WFStore (create_and s a0 b0).2
      rcases create_and_cases s a0 b0 with heq | ⟨a, b, hperm, _, _, _, heq⟩
      · rw [heq]; exact hwf
      · intro i hi
        set s1 : Storage :=
          { s with nodes := s.nodes ++ [⟨a, b, 0, 0⟩],
                   hash := ((a, b), s.nodes.length) :: s.hash } with hs1
        have hg0 : ((create_and s a0 b0).2.getNode i).fanin0 = (s1.getNode i).fanin0 := by
          rw [heq, getNode_bumpRef_fanin0, getNode_bumpRef_fanin0]
        have hg1 : ((create_and s a0 b0).2.getNode i).fanin1 = (s1.getNode i).fanin1 := by
          rw [heq, getNode_bumpRef_fanin1, getNode_bumpRef_fanin1]
        have hlen : (create_and s a0 b0).2.nodes.length = s.nodes.length + 1 := by
          rw [heq, length_bumpRef, length_bumpRef]
          simp [hs1]
        rw [hlen] at hi ⊢
        rw [hg0, hg1]
        rcases Nat.lt_succ_iff_lt_or_eq.mp hi with hi | hi
        · have hg : s1.getNode i = s.getNode i := by
            show getAt (s.nodes ++ [⟨a, b, 0, 0⟩]) i = _
            exact getAt_append_lt _ _ _ hi
          rw [hg]
          have := hwf i hi
          omega
        · subst hi
          have hg : s1.getNode s.nodes.length = ⟨a, b, 0, 0⟩ := by
            show getAt (s.nodes ++ [⟨a, b, 0, 0⟩]) s.nodes.length = _
            exact getAt_append_len _ _
          rw [hg]
          show a.index < s.nodes.length + 1 ∧ b.index < s.nodes.length + 1
          rcases hperm with ⟨rfl, rfl⟩ | ⟨rfl, rfl⟩ <;> exact ⟨by omega, by omega⟩
  | mkPo f =>
      show WFStore (create_po s f)
      intro i hi
      have hlen : (create_po s f).nodes.length = s.nodes.length := by
        rw [create_po_nodes, length_bumpRef]
      rw [hlen] at hi ⊢
      rw [show ((create_po s f).getNode i).fanin0 = (s.getNode i).fanin0 from
            getNode_bumpRef_fanin0 s f.index i,
          show ((create_po s f).getNode i).fanin1 = (s.getNode i).fanin1 from
            getNode_bumpRef_fanin1 s f.index i]
      exact hwf i hi

theorem wf_buildFrom (ops : List BuildOp) :
    ∀ s, WFStore s → validOps s ops = true → WFStore (buildFrom s ops) := by
  induction ops with
  | nil => intro s h _; exact h
  | cons op rest ih =>
      intro s h hv
      unfold validOps at hv
      rw [Bool.and_eq_true] at hv
      exact ih (applyOp s op) (wf_applyOp s op h hv.1) hv.2

theorem wf_build (ops : List BuildOp) (hv : validOps initStorage ops = true) :
    WFStore (build ops) :=
  wf_buildFrom ops initStorage wf_init hv

/-- The packed `data` word determines the signal (the complement is the
parity bit). -/
theorem data_inj (x y : Signal) (h : x.data = y.data) : x = y := by
  obtain ⟨xi, xc⟩ := x
  obtain ⟨yi, yc⟩ := y
  unfold Signal.data at h
  cases xc <;> cases yc <;> simp at h ⊢ <;> omega

/-- In a built graph, a node that is neither the constant nor a PI cannot
have both fanins zero (it would satisfy `is_pi` or be node 0). -/
theorem not_bothZero_of_and (s : Storage) (h : BuildInv s) (i : Nat)
    (hi : i < s.nodes.length) (hc : i ≠ 0) (hp : is_pi s i = false) :
    ¬ bothZero s i := by
  intro hz
  rcases (h.zero_iff i hi).mp hz with h0 | h0
  · exact hc h0
  · have hK : 0 < s.inputs.length :=
      List.length_pos.mpr (List.ne_nil_of_mem h0)
    obtain ⟨hz0, hz1⟩ := hz
    unfold is_pi at hp
    rw [hz0, hz1] at hp
    simp [Signal.data, hK] at hp

/-- The structural-hash hit path of `create_and`: ordered non-constant
fanins found in the hash return the registered index with complement 0 and
leave the storage untouched. -/
theorem create_and_hit (s : Storage) (x y : Signal) (hx : 0 < x.index)
    (hxy : x.index < y.index) (i : Nat) (hh : hfind s.hash (x, y) = some i) :
    create_and s x y = (⟨i, false⟩, s) := by
  unfold create_and
  have h1 : ¬ (y.index < x.index) := by omega
  have h2 : ¬ (x.index = y.index) := by omega
  have h3 : ¬ (x.index = 0) := by omega
  simp only [if_neg h1, if_neg h2, if_neg h3, hh]

/-- Claim C5: in any built graph no two AND nodes (nodes that are neither
the constant nor PIs) share the same ordered fanin pair, and replaying
`create_and` on the fanin pair of an existing AND node returns that node's
index with complement 0, leaving the storage (and so the node count)
unchanged. -/
theorem structural_hashing_unique (ops : List BuildOp) :
    (∀ i j, i < (build ops).nodes.length → j < (build ops).nodes.length →
        i ≠ 0 → is_pi (build ops) i = false →
        j ≠ 0 → is_pi (build ops) j = false →
        ((build ops).getNode i).fanin0 = ((build ops).getNode j).fanin0 →
        ((build ops).getNode i).fanin1 = ((build ops).getNode j).fanin1 →
        i = j)
    ∧ (∀ i, i < (build ops).nodes.length →
        i ≠ 0 → is_pi (build ops) i = false →
        create_and (build ops) ((build ops).getNode i).fanin0
          ((build ops).getNode i).fanin1 = (⟨i, false⟩, build ops)) := by
  have hb : BuildInv (build ops) := buildInv_build ops
  constructor
  · intro i j hi hj hci hpi hcj hpj hf0 hf1
    have hzi := not_bothZero_of_and _ hb i hi hci hpi
    have hzj := not_bothZero_of_and _ hb j hj hcj hpj
    have h1 := hb.hash_complete i hi hzi
    have h2 := hb.hash_complete j hj hzj
    rw [hf0, hf1] at h1
    rw [h1] at h2
    exact (Option.some.injEq _ _).mp h2
  · intro i hi hci hpi
    have hzi := not_bothZero_of_and _ hb i hi hci hpi
    obtain ⟨ha, hab⟩ := hb.and_ord i hi hzi
    exact create_and_hit _ _ _ ha hab i (hb.hash_complete i hi hzi)

/-- Claim C5, witness: replaying `create_and(x0, x1)` on the six-node test
graph returns node 4 and leaves the graph unchanged. -/
theorem structural_hashing_unique_witness :
    (4 < (build ops6).nodes.length ∧ (4 : Nat) ≠ 0
      ∧ is_pi (build ops6) 4 = false)
    ∧ create_and (build ops6) ((build ops6).getNode 4).fanin0
        ((build ops6).getNode 4).fanin1 = (⟨4, false⟩, build ops6) :=
  ⟨⟨by decide, by decide, by decide⟩,
    (structural_hashing_unique ops6).2 4 (by decide) (by decide) (by decide)⟩

/-! ### The PI-prefix build shape for claim C9 -/

theorem inputs_create_and (s : Storage) (a0 b0 : Signal) :
    (create_and s a0 b0).2.inputs = s.inputs := by
  rcases create_and_cases s a0 b0 with heq | ⟨a, b, _, _, _, _, heq⟩
  · rw [heq]
  · rw [heq, inputs_bumpRef, inputs_bumpRef]

theorem inputs_buildFrom_noPi (ops : List BuildOp) (h : noPiOps ops = true) :
    ∀ s, (buildFrom s ops).inputs = s.inputs := by
  induction ops with
  | nil => intro s; rfl
  | cons op rest ih =>
      intro s
      cases op with
      | mkPi => simp [noPiOps] at h
      | mkAnd a b =>
          have h1 : buildFrom s (BuildOp.mkAnd a b :: rest) =
              buildFrom (applyOp s (BuildOp.mkAnd a b)) rest := rfl
          have h2 : noPiOps rest = true := h
          rw [h1, ih h2]
          exact inputs_create_and s a b
      | mkPo f =>
          have h1 : buildFrom s (BuildOp.mkPo f :: rest) =
              buildFrom (applyOp s (BuildOp.mkPo f)) rest := rfl
          have h2 : noPiOps rest = true := h
          rw [h1, ih h2]
          exact create_po_inputs s f

theorem buildFrom_pis : ∀ (K : Nat) (s : Storage),
    buildFrom s (pis K) =
      { s with nodes := s.nodes ++ List.replicate K defaultNode,
               inputs := s.inputs ++ List.range' s.nodes.length K } := by
  intro K
  induction K with
  | zero =>
      intro s
      show s = _
      simp
  | succ K ih =>
      intro s
      have h1 : pis (K + 1) = BuildOp.mkPi :: pis K := rfl
      rw [h1]
      have h2 : buildFrom s (BuildOp.mkPi :: pis K) =
          buildFrom (create_pi s).2 (pis K) := rfl
      rw [h2, ih]
      obtain ⟨ns, is0, os, hs⟩ := s
      simp [create_pi, List.range'_succ, List.replicate_succ]

theorem build_pis_rest (K : Nat) (rest : List BuildOp) :
    build (pis K ++ rest) = buildFrom (buildFrom initStorage (pis K)) rest := by
  simp [build, buildFrom, List.foldl_append]

/-- Claim C9 (amended): in a graph built with `K` `create_pi` calls
followed by PI-free operations, `is_pi` holds exactly of the indices
`1..K` and additionally of the constant node 0 whenever `K ≥ 1`. -/
theorem is_pi_characterization (K : Nat) (rest : List BuildOp)
    (hrest : noPiOps rest = true) (n : Nat)
    (hn : n < (build (pis K ++ rest)).nodes.length) :
    (is_pi (build (pis K ++ rest)) n = true ↔
      ((1 ≤ n ∧ n ≤ K) ∨ (n = 0 ∧ 1 ≤ K))) := by
  set s := build (pis K ++ rest) with hsdef
  have hb : BuildInv s := buildInv_build _
  have hinputs : s.inputs = List.range' 1 K := by
    rw [hsdef, build_pis_rest, inputs_buildFrom_noPi rest hrest, buildFrom_pis]
    simp [initStorage]
  have hKlen : s.inputs.length = K := by rw [hinputs]; simp
  have hmem : ∀ m, m ∈ s.inputs ↔ (1 ≤ m ∧ m ≤ K) := by
    intro m
    rw [hinputs, List.mem_range'_1]
    omega
  constructor
  · intro hpi
    unfold is_pi at hpi
    rw [Bool.and_eq_true, beq_iff_eq, decide_eq_true_eq] at hpi
    obtain ⟨hdata, hlt⟩ := hpi
    have hsig : (s.getNode n).fanin0 = (s.getNode n).fanin1 := data_inj _ _ hdata
    by_cases hz : bothZero s n
    · rcases (hb.zero_iff n hn).mp hz with h0 | h0
      · right
        refine ⟨h0, ?_⟩
        obtain ⟨hz0, _⟩ := hz
        rw [hz0] at hlt
        simp [Signal.data] at hlt
        omega
      · left; exact (hmem n).mp h0
    · exfalso
      have hord := hb.and_ord n hn hz
      rw [hsig] at hord
      omega
  · intro hca
    have hz : bothZero s n := by
      rcases hca with ⟨h1, h2⟩ | ⟨h0, hK⟩
      · exact (hb.zero_iff n hn).mpr (Or.inr ((hmem n).mpr ⟨h1, h2⟩))
      · exact (hb.zero_iff n hn).mpr (Or.inl h0)
    have hK1 : 1 ≤ K := by
      rcases hca with ⟨h1, h2⟩ | ⟨_, hK⟩
      · omega
      · exact hK
    obtain ⟨hz0, hz1⟩ := hz
    unfold is_pi
    rw [hz0, hz1, Bool.and_eq_true, beq_iff_eq, decide_eq_true_eq]
    refine ⟨rfl, ?_⟩
    show Signal.data ⟨0, false⟩ < s.inputs.length
    rw [hKlen]
    simp [Signal.data]
    omega

/-- Claim C9, witness: a single-PI graph, evaluated at the constant node,
where the characterization yields `is_pi 0 = true` through the `n = 0`,
`K ≥ 1` disjunct. -/
theorem is_pi_characterization_witness :
    (noPiOps [] = true ∧ 0 < (build (pis 1 ++ [])).nodes.length)
    ∧ (is_pi (build (pis 1 ++ [])) 0 = true ↔
        ((1 ≤ 0 ∧ 0 ≤ 1) ∨ (0 = 0 ∧ 1 ≤ 1))) :=
  ⟨⟨by decide, by decide⟩, is_pi_characterization 1 [] (by decide) 0 (by decide)⟩

/-! ### Propagation of the tracked assertion flag for claim C10 -/

theorem step0_cafail_mono (t : Nat) (st : Pass0State) (x : Nat)
    (h : st.cafail = true) : (step0 t st x).cafail = true := by
  unfold step0
  simp only [h, Bool.true_or]
  repeat' split
  all_goals rfl

theorem foldl_step0_cafail (t : Nat) (l : List Nat) :
    ∀ st : Pass0State, st.cafail = true →
      (List.foldl (step0 t) st l).cafail = true := by
  induction l with
  | nil => intro st h; exact h
  | cons x rest ih =>
      intro st h
      rw [List.foldl_cons]
      exact ih _ (step0_cafail_mono t st x h)

theorem pass0_cafail_zero_head (t : Nat) (s : Storage) (rest : List Nat) :
    (pass0 t s (0 :: rest)).cafail = true := by
  unfold pass0
  rw [List.foldl_cons]
  apply foldl_step0_cafail
  unfold step0
  simp only [is_constant, beq_self_eq_true, Bool.or_true]
  repeat' split
  all_goals rfl

theorem expand0Go_cafail_mono (t : Nat) (fuel : Nat) :
    ∀ (s : Storage) (cut : List Nat),
      (expand0Go t fuel s cut true).cafail = true := by
  induction fuel with
  | zero => intro s cut; rfl
  | succ fuel ih =>
      intro s cut
      unfold expand0Go
      simp only [Bool.true_or]
      split
      · exact ih _ _
      · rfl

theorem expand0_cut_zero_cafail (s : Storage) (t : Nat) :
    (expand0 s [0] t).cafail = true := by
  unfold expand0
  have hp := pass0_cafail_zero_head t s []
  show (expand0Go t ([0].length + s.nodes.length + 1) s [0] false).cafail = true
  unfold expand0Go
  simp only [hp, Bool.or_true]
  split
  · exact expand0Go_cafail_mono t _ _ _
  · rfl

theorem expandGo_caf_mono (t limit : Nat) (fuel : Nat) :
    ∀ (s : Storage) (cut : List Nat) (best : Option (List Nat))
      (trivB : Bool) (iters : Nat),
      (expandGo t limit fuel s cut best trivB iters true).2.2.2.1 = true := by
  induction fuel with
  | zero => intro s cut best trivB iters; rfl
  | succ fuel ih =>
      intro s cut best trivB iters
      unfold expandGo
      split
      · simp only [Bool.true_or]
        exact ih _ _ _ _ _
      · rfl

/-- Claim C10: `create_cut` on the constant node of a built graph
successfully claims node 0 (its mark is 0 after the build), seeds the cut
with it, and `expand0` then reaches `assert( !aig.is_constant( *it ) )` on
that cut element — the assertion is violated (tracked by `cafail`). -/
theorem create_cut_constant_assert (ops : List BuildOp) (t : Nat) (ht : t ≠ 0) :
    check_and_mark (build ops) 0 t = (true, (build ops).setMark 0 t)
    ∧ (create_cut (build ops) 0 t).cafail = true := by
  have hb := buildInv_build ops
  have hm : (build ops).markOf 0 = 0 := hb.marks_zero 0
  have hz : (0 : Nat) ≠ t := Ne.symm ht
  have hcm : check_and_mark (build ops) 0 t = (true, (build ops).setMark 0 t) := by
    simp [check_and_mark, hm, hz]
  refine ⟨hcm, ?_⟩
  unfold create_cut
  rw [hcm]
  simp only [Bool.not_true, Bool.false_eq_true, if_false]
  unfold expand
  have h0 : (expand0 ((build ops).setMark 0 t) [0] t).cafail = true :=
    expand0_cut_zero_cafail _ t
  dsimp only
  split
  · exact h0
  · show (expandGo t 6 _ _ _ none false 0
        (expand0 ((build ops).setMark 0 t) [0] t).cafail).2.2.2.1 = true
    rw [h0]
    exact expandGo_caf_mono t 6 _ _ _ _ _ _

/-- Claim C10, witness: the six-node test graph with thread id 1. -/
theorem create_cut_constant_assert_witness :
    (1 : Nat) ≠ 0
    ∧ (check_and_mark (build ops6) 0 1 = (true, (build ops6).setMark 0 1)
        ∧ (create_cut (build ops6) 0 1).cafail = true) :=
  ⟨by decide, create_cut_constant_assert ops6 1 (by decide)⟩

/-! ### Paths and reachability in the DAG

A path follows fanin edges from a node towards the inputs; edges leave
only nodes that are neither the constant nor a PI (`foreach_fanin` yields
nothing for those). -/

/-- Claim C2 (code bug): with thread 2 holding `x1`, `expand0` run by
thread 1 on the cut `[n3, x0]` fails to claim `x1` (`check_and_mark`
returns false), yet still erases `n3` from the cut: the result is `[x0]`,
not the `[n3, x0]` required by the claim-failure semantics of the spec.
The erase `it = cut.erase( it );` in the source runs unconditionally,
outside the success branch of the claim. -/
theorem expand0_claim_failure_removes_leaf :
    claimFailStore.markOf 2 = 2
    ∧ (check_and_mark claimFailStore 2 1).1 = false
    ∧ (expand0 claimFailStore [3, 1] 1).cut = [1] := by
  refine ⟨by decide, by decide, by decide⟩

/-- Claim C7 (code bug): on the build-phase graph of `ops3`, the cut of
`n3` is non-trivial and within the size limit after the first `expand0`,
so the source executes `*best_cut = cut;` while `best_cut` is still the
disengaged optional — the very dereference the claim rules out.  The
model's `optDeref` flag records exactly that this line was reached with
the optional empty. -/
theorem expand_empty_optional_deref :
    (create_cut (build ops3) 3 1).optDeref = true := by
  decide

/-- Claim C8, counterexample: `create_cut` on `n3` of the freshly built
`ops3` graph leaves the primary input `x0` (index 1) with mark 1 — the
claim's assertion that PI marks remain 0 throughout is false (PIs are
claimed by `check_and_mark` when `expand0` and `expand` absorb them as cut
leaves). -/
theorem pi_gets_marked_cex :
    is_pi (build ops3) 1 = true
    ∧ (build ops3).markOf 1 = 0
    ∧ (create_cut (build ops3) 3 1).store.markOf 1 = 1 := by
  refine ⟨by decide, by decide, by decide⟩

/-- Claim C9, counterexample: in a graph built with one `create_pi`,
`is_pi` is true of the constant node 0 — the constant node's
value-initialized fanins coincide and their raw data 0 is below the input
count, so the `is_pi` test cannot tell node 0 from a PI once K ≥ 1. -/
theorem is_pi_constant_cex :
    is_pi (build [BuildOp.mkPi]) 0 = true := by
  decide

/-- Claim C1, counterexample: with a stale mark of the same thread id left
on `x0`, `create_cut(n3, 1)` returns the non-empty cut `[x1]`, yet the
fanin path `n3 → x0` ends at the PI `x0` without meeting the cut: the
covering part of the claim fails for this initial mark state (the stale
mark makes `expand0` count `x0` as already inside the cut). -/
theorem create_cut_dirty_marks_cex :
    (create_cut staleMarkStore 3 1).cut = [2]
    ∧ PathTo staleMarkStore 3 [3, 1]
    ∧ EndsAtPi staleMarkStore [3, 1]
    ∧ ¬ ∃ v, v ∈ [3, 1] ∧ v ∈ (create_cut staleMarkStore 3 1).cut := by
  refine ⟨by decide, PathTo.cons (by decide) (PathTo.single 1), ⟨1, by decide⟩, ?_⟩
  rintro ⟨v, hv, hc⟩
  have h : (create_cut staleMarkStore 3 1).cut = [2] := by decide
  rw [h] at hc
  simp only [List.mem_cons, List.mem_singleton, List.not_mem_nil] at hv hc
  rcases hv with rfl | rfl | h3 <;> simp_all

/-- Helper for claim C6: the body of `expand`'s while loop maps the
livelock state to itself (the selected best fanin `x0` is held by thread
2, the claim fails, `expand0` finds nothing cost-free, and the oversize
counter resets because the cut is within the limit), so no amount of fuel
makes the loop exit. -/
theorem expandGo_livelock_aux (fuel : Nat) :
    ∀ (best : Option (List Nat)) (caf : Bool),
      (expandGo 1 6 fuel livelockStore [3] best false 0 caf).2.2.2.2 = false := by
  induction fuel with
  | zero => intro best caf; rfl
  | succ fuel ih =>
    intro best caf
    have hsel : select_next_fanin livelockStore [3] = 1 := by decide
    have hcm : check_and_mark livelockStore 1 1 = (false, livelockStore) := by decide
    have he : expand0 livelockStore [3] 1 = ⟨livelockStore, [3], false, false⟩ := by
      decide
    show (expandGo 1 6 (fuel + 1) livelockStore [3] best false 0 caf).2.2.2.2 = false
    simp only [expandGo, hsel, hcm, he, Bool.not_false, Bool.true_and]
    simpa using ih _ _

/-- Claim C6 (code bug): `create_cut(n3, 1)` with both PIs held by thread
2 never terminates — the while loop of `expand` keeps selecting `x0`,
failing to claim it, re-running `expand0` without effect, and resetting
the oversize counter because the cut size 1 stays within the limit.  The
first conjunct evaluates the model (whose `expand` fuel is exhausted, so
`exited = false`); the second shows no fuel at all makes the loop exit,
i.e. the source loop diverges. -/
theorem expand_livelock :
    (create_cut livelockInput 3 1).exited = false
    ∧ ¬ ∃ fuel,
        (expandGo 1 6 fuel livelockStore [3] none false 0 false).2.2.2.2 = true := by
  refine ⟨by decide, ?_⟩
  rintro ⟨fuel, hf⟩
  rw [expandGo_livelock_aux fuel none false] at hf
  exact Bool.false_ne_true hf

/-- Claim C3: `check_and_mark` returns true and leaves the state unchanged
when the mark already equals the caller's id; claims an unmarked node by
setting the mark; fails without side effect against a foreign non-zero
mark — and therefore, once a thread holds a node, every `check_and_mark`
by a different id fails until `reset_mark`, after which a claim succeeds
again. -/
theorem check_and_mark_spec (s : Storage) (n t t1 : Nat)
    (hn : n < s.nodes.length) (ht : t ≠ 0) (ht1 : t1 ≠ 0) (hne : t1 ≠ t) :
    (s.markOf n = t → check_and_mark s n t = (true, s))
    ∧ (s.markOf n = 0 →
        check_and_mark s n t = (true, s.setMark n t)
        ∧ (s.setMark n t).markOf n = t)
    ∧ (s.markOf n = t1 → check_and_mark s n t = (false, s))
    ∧ (s.markOf n = t → check_and_mark s n t1 = (false, s))
    ∧ (reset_mark s n).markOf n = 0
    ∧ (s.markOf n = t →
        check_and_mark (reset_mark s n) n t1 =
          (true, (reset_mark s n).setMark n t1)) := by
  refine ⟨fun h => ?_, fun h => ⟨?_, ?_⟩, fun h => ?_, fun h => ?_, ?_, fun h => ?_⟩
  · simp [check_and_mark, h]
  · simp [check_and_mark, h, ht.symm]
  · exact Storage.markOf_setMark_self _ _ _ hn
  · simp [check_and_mark, h, ht1, fun hc : t1 = t => hne hc]
  · have hne2 : ¬t = t1 := fun hc => hne hc.symm
    simp [check_and_mark, h, ht, hne2]
  · exact Storage.markOf_setMark_self _ _ _ hn
  · have h0 : (s.setMark n 0).markOf n = 0 := Storage.markOf_setMark_self _ _ _ hn
    have hz : (0 : Nat) ≠ t1 := Ne.symm ht1
    simp [check_and_mark, reset_mark, h0, hz]

/-- Claim C3, witness: a two-node graph where node 1 is claimed by thread 1
and thread 2 is locked out until the reset. -/
theorem check_and_mark_spec_witness :
    (1 < (build [BuildOp.mkPi]).nodes.length ∧ (1 : Nat) ≠ 0 ∧ (2 : Nat) ≠ 0
      ∧ (2 : Nat) ≠ 1)
    ∧ (((build [BuildOp.mkPi]).markOf 1 = 0 →
        check_and_mark (build [BuildOp.mkPi]) 1 1 =
          (true, (build [BuildOp.mkPi]).setMark 1 1)
        ∧ ((build [BuildOp.mkPi]).setMark 1 1).markOf 1 = 1)) :=
  ⟨by decide,
    (check_and_mark_spec (build [BuildOp.mkPi]) 1 1 2 (by decide) (by decide)
      (by decide) (by decide)).2.1⟩

/-- Claim C4: the trivial rules of `create_and` — `a ∧ a = a`,
`a ∧ ¬a = 0`, `0 ∧ x = 0`, `1 ∧ x = x` — and none of them modifies the
storage (in particular no node is appended). -/
theorem create_and_trivial_rules (s : Storage) (a x : Signal) :
    create_and s a a = (a, s)
    ∧ create_and s a a.neg = (get_constant false, s)
    ∧ create_and s (get_constant false) x = (get_constant false, s)
    ∧ create_and s (get_constant true) x = (x, s) := by
  obtain ⟨xi, xc⟩ := x
  refine ⟨?_, ?_, ?_, ?_⟩
  · simp [create_and]
  · simp [create_and, Signal.neg]
  · cases xi with
    | zero => cases xc <;> simp [create_and, get_constant]
    | succ k => simp [create_and, get_constant]
  · cases xi with
    | zero => cases xc <;> simp [create_and, get_constant]
    | succ k => simp [create_and, get_constant]

/-! ### Mark-only storage evolution

During cut expansion the only mutation is `check_and_mark` writing a mark
word; the graph shape (lengths, fanins, inputs) is frozen.  `MarkOnly`
captures this, and the graph-level predicates transport along it. -/

theorem markOnly_refl (s : Storage) : MarkOnly s s :=
  ⟨rfl, rfl, fun _ => rfl, fun _ => rfl⟩

theorem markOnly_trans {s s1 s2 : Storage}
    (h1 : MarkOnly s s1) (h2 : MarkOnly s1 s2) : MarkOnly s s2 :=
  ⟨h2.len_eq.trans h1.len_eq, h2.inputs_eq.trans h1.inputs_eq,
    fun v => (h2.fanin0_eq v).trans (h1.fanin0_eq v),
    fun v => (h2.fanin1_eq v).trans (h1.fanin1_eq v)⟩

theorem markOnly_setMark (s : Storage) (m v : Nat) :
    MarkOnly s (s.setMark m v) :=
  ⟨s.length_setMark m v, rfl,
    fun w => s.getNode_setMark_fanin0 m v w,
    fun w => s.getNode_setMark_fanin1 m v w⟩

theorem markOnly_check_and_mark (s : Storage) (m t : Nat) :
    MarkOnly s (check_and_mark s m t).2 := by
  unfold check_and_mark
  dsimp only
  split
  · exact markOnly_refl s
  · split
    · exact markOnly_setMark s m t
    · exact markOnly_refl s

theorem is_pi_markOnly {s s1 : Storage} (h : MarkOnly s s1) (v : Nat) :
    is_pi s1 v = is_pi s v := by
  unfold is_pi
  rw [h.fanin0_eq v, h.fanin1_eq v, h.inputs_eq]

theorem stepTo_markOnly {s s1 : Storage} (h : MarkOnly s s1) (u v : Nat) :
    stepTo s1 u v ↔ stepTo s u v := by
  unfold stepTo
  rw [h.fanin0_eq u, h.fanin1_eq u, is_pi_markOnly h u]

theorem fanin_size_markOnly {s s1 : Storage} (h : MarkOnly s s1) (v : Nat) :
    fanin_size s1 v = fanin_size s v := by
  unfold fanin_size
  rw [is_pi_markOnly h v]

theorem markMono_refl (t : Nat) (s : Storage) : MarkMono t s s := fun _ h => h

theorem markMono_trans {t : Nat} {s s1 s2 : Storage}
    (h1 : MarkMono t s s1) (h2 : MarkMono t s1 s2) : MarkMono t s s2 :=
  fun v h => h2 v (h1 v h)

theorem markMono_setMark (t : Nat) (s : Storage) (m : Nat) :
    MarkMono t s (s.setMark m t) := by
  intro v hv
  by_cases hvm : v = m
  · subst hvm
    by_cases hl : v < s.nodes.length
    · exact s.markOf_setMark_self v t hl
    · rw [Storage.setMark, setAt_of_le _ _ _ (Nat.le_of_not_lt hl)]
      exact hv
  · rw [s.markOf_setMark_ne m v t hvm]
    exact hv

theorem markMono_check_and_mark (t : Nat) (s : Storage) (m : Nat) :
    MarkMono t s (check_and_mark s m t).2 := by
  unfold check_and_mark
  dsimp only
  split
  · exact markMono_refl t s
  · split
    · exact markMono_setMark t s m
    · exact markMono_refl t s

/-! ### The covering property and the expansion invariant -/

theorem CInv.congr {s0 : Storage} {n t : Nat} {s : Storage} {cut cut1 : List Nat}
    (h : CInv s0 n t s cut) (hmem : ∀ v, v ∈ cut1 ↔ v ∈ cut) :
    CInv s0 n t s cut1 :=
  ⟨h.mo, h.root_marked,
    fun v hv => h.mem_marked v ((hmem v).mp hv),
    fun v hv => h.mem_reach v ((hmem v).mp hv),
    fun v hv => h.mem_lt v ((hmem v).mp hv),
    h.marks_sub,
    fun v hv hnv => h.closed v hv (fun hc => hnv ((hmem v).mpr hc)),
    h.const_zero⟩

theorem pathTo_ne_nil {s : Storage} {v : Nat} {p : List Nat}
    (h : PathTo s v p) : p ≠ [] := by
  cases h <;> simp

/-- The walk: from any claimed node, a path ending at a PI must cross the
cut (claimed non-cut nodes are non-PIs whose fanin edges stay claimed). -/
theorem cinv_walk {s0 : Storage} {n t : Nat} {s : Storage} {cut : List Nat}
    (h : CInv s0 n t s cut) :
    ∀ p v, PathTo s0 v p → EndsAtPi s0 p → s.markOf v = t →
      ∃ u, u ∈ p ∧ u ∈ cut := by
  intro p v hp
  induction hp with
  | single v0 =>
      intro hend hm
      by_cases hv : v0 ∈ cut
      · exact ⟨v0, by simp, hv⟩
      · obtain ⟨e, he, hepi⟩ := hend
        have hev : v0 = e := by simpa using he
        rw [← hev] at hepi
        rw [(h.closed v0 hm hv).1] at hepi
        cases hepi
  | @cons u w p0 hstep hpath ih =>
      intro hend hm
      by_cases hu : u ∈ cut
      · exact ⟨u, by simp, hu⟩
      · have hcl := h.closed u hm hu
        have hmw : s.markOf w = t := hcl.2 w hstep
        have hne := pathTo_ne_nil hpath
        have hend0 : EndsAtPi s0 p0 := by
          obtain ⟨e, he, hepi⟩ := hend
          refine ⟨e, ?_, hepi⟩
          cases p0 with
          | nil => exact absurd rfl hne
          | cons b l =>
              rw [List.getLast?_cons_cons] at he
              exact he
        obtain ⟨x, hx, hxc⟩ := ih hend0 hmw
        exact ⟨x, List.mem_cons_of_mem u hx, hxc⟩

theorem cinv_covers {s0 : Storage} {n t : Nat} {s : Storage} {cut : List Nat}
    (h : CInv s0 n t s cut) : Covers s0 n cut := by
  intro p hp hend
  obtain ⟨u, hu, huc⟩ := cinv_walk h p n hp hend h.root_marked
  exact ⟨u, hu, huc⟩

/-- Appending one fanin edge to a reachability chain. -/
theorem reach_snoc {s0 : Storage} {a b c : Nat}
    (h : Reach s0 a b) (hstep : stepTo s0 b c) : Reach s0 a c := by
  induction h with
  | refl x => exact Reach.tail hstep (Reach.refl c)
  | tail hs _ ih => exact Reach.tail hs (ih hstep)

/-! ### Case equations for `step0` and facts about `faninInfo` -/

theorem faninInfo_none_marked (s : Storage) (t x : Nat) (hx : x ≠ 0)
    (h : (faninInfo s t x).2 = none) :
    s.markOf ((s.getNode x).fanin0.index) = t ∧
    s.markOf ((s.getNode x).fanin1.index) = t := by
  have hx1 : ¬ ((x == 0) = true) := by simpa using hx
  unfold faninInfo at h
  rw [if_neg hx1] at h
  dsimp only at h
  by_cases h1 : (s.markOf ((s.getNode x).fanin1.index) == t) = true
  · rw [if_pos h1] at h
    by_cases h0 : (s.markOf ((s.getNode x).fanin0.index) == t) = true
    · exact ⟨by simpa using h0, by simpa using h1⟩
    · rw [if_neg h0] at h
      simp at h
  · rw [if_neg h1] at h
    simp at h

theorem faninInfo_some_facts (s : Storage) (t x m : Nat)
    (h : (faninInfo s t x).2 = some m) :
    x ≠ 0 ∧ s.markOf m ≠ t ∧
    (m = (s.getNode x).fanin0.index ∨ m = (s.getNode x).fanin1.index) := by
  by_cases hx1 : (x == 0) = true
  · unfold faninInfo at h
    rw [if_pos hx1] at h
    simp at h
  · have hx : x ≠ 0 := by simpa using hx1
    unfold faninInfo at h
    rw [if_neg hx1] at h
    dsimp only at h
    by_cases h1 : (s.markOf ((s.getNode x).fanin1.index) == t) = true
    · rw [if_pos h1] at h
      by_cases h0 : (s.markOf ((s.getNode x).fanin0.index) == t) = true
      · rw [if_pos h0] at h
        simp at h
      · rw [if_neg h0] at h
        simp at h
        refine ⟨hx, ?_, Or.inl h.symm⟩
        rw [← h]
        simpa using h0
    · rw [if_neg h1] at h
      simp at h
      refine ⟨hx, ?_, Or.inr h.symm⟩
      rw [← h]
      simpa using h1

theorem faninInfo_some_cnt (s : Storage) (t x m : Nat)
    (h : (faninInfo s t x).2 = some m) (hc : 1 ≤ (faninInfo s t x).1) :
    (m = (s.getNode x).fanin0.index ∧
      s.markOf ((s.getNode x).fanin1.index) = t) ∨
    (m = (s.getNode x).fanin1.index ∧
      s.markOf ((s.getNode x).fanin0.index) = t) := by
  by_cases hx1 : (x == 0) = true
  · unfold faninInfo at h
    rw [if_pos hx1] at h
    simp at h
  · unfold faninInfo at h hc
    rw [if_neg hx1] at h hc
    dsimp only at h hc
    by_cases h1 : (s.markOf ((s.getNode x).fanin1.index) == t) = true
    · rw [if_pos h1] at h
      by_cases h0 : (s.markOf ((s.getNode x).fanin0.index) == t) = true
      · rw [if_pos h0] at h
        simp at h
      · rw [if_neg h0] at h
        simp at h
        exact Or.inl ⟨h.symm, by simpa using h1⟩
    · rw [if_neg h1] at h hc
      simp at h
      by_cases h0 : (s.markOf ((s.getNode x).fanin0.index) == t) = true
      · exact Or.inr ⟨h.symm, by simpa using h0⟩
      · rw [if_neg h0] at hc
        simp at hc

theorem step0_eq_pi (t : Nat) (st : Pass0State) (x : Nat)
    (h : is_pi st.store x = true) :
    step0 t st x = { st with kept := st.kept ++ [x],
                             cafail := st.cafail || is_constant x } := by
  unfold step0
  rw [if_pos h]

theorem step0_eq_skip (t : Nat) (st : Pass0State) (x : Nat)
    (h : is_pi st.store x = false)
    (hc : (faninInfo st.store t x).1 + 1 < fanin_size st.store x) :
    step0 t st x = { st with kept := st.kept ++ [x], triv := false,
                             cafail := st.cafail || is_constant x } := by
  unfold step0
  rw [if_neg (by simp [h]), if_pos hc]

theorem step0_eq_erase_none (t : Nat) (st : Pass0State) (x : Nat)
    (h : is_pi st.store x = false)
    (hc : ¬ ((faninInfo st.store t x).1 + 1 < fanin_size st.store x))
    (he : (faninInfo st.store t x).2 = none) :
    step0 t st x = { st with triv := false, changed := true,
                             cafail := st.cafail || is_constant x } := by
  unfold step0
  rw [if_neg (by simp [h]), if_neg hc, he]

theorem step0_eq_erase_some (t : Nat) (st : Pass0State) (x m : Nat)
    (h : is_pi st.store x = false)
    (hc : ¬ ((faninInfo st.store t x).1 + 1 < fanin_size st.store x))
    (he : (faninInfo st.store t x).2 = some m) :
    step0 t st x =
      { store := (check_and_mark st.store m t).2, kept := st.kept,
        fresh := if (check_and_mark st.store m t).1 then st.fresh ++ [m]
                 else st.fresh,
        triv := false, changed := true,
        cafail := st.cafail || is_constant x } := by
  unfold step0
  rw [if_neg (by simp [h]), if_neg hc, he]

set_option maxHeartbeats 1000000 in
/-- Preservation of the expansion invariant by one `expand0` loop-body
step.  The effective cut mid-pass is `kept ++ remaining ++ fresh`; the
step moves the head of `remaining` as the source does (keep, or erase with
an optional claimed replacement in `fresh`). -/
theorem step0_cinv {s0 : Storage} {n t : Nat} (hb : BuildInv s0)
    (hwf : WFStore s0) (ht : t ≠ 0) (st : Pass0State) (x : Nat) (l : List Nat)
    (h : CInv s0 n t st.store (st.kept ++ ((x :: l) ++ st.fresh))) :
    CInv s0 n t (step0 t st x).store
      ((step0 t st x).kept ++ (l ++ (step0 t st x).fresh))
    ∧ MarkMono t st.store (step0 t st x).store := by
  have hxE : x ∈ st.kept ++ ((x :: l) ++ st.fresh) := by simp
  by_cases hpi : is_pi st.store x = true
  · rw [step0_eq_pi t st x hpi]
    refine ⟨h.congr ?_, markMono_refl t st.store⟩
    intro v
    simp only [List.mem_append, List.mem_cons, List.mem_singleton]
    tauto
  · have hpi1 : is_pi st.store x = false := by simpa using hpi
    have hpi0 : is_pi s0 x = false := by
      rw [← is_pi_markOnly h.mo x]
      exact hpi1
    by_cases hcost : (faninInfo st.store t x).1 + 1 < fanin_size st.store x
    · rw [step0_eq_skip t st x hpi1 hcost]
      refine ⟨h.congr ?_, markMono_refl t st.store⟩
      intro v
      simp only [List.mem_append, List.mem_cons, List.mem_singleton]
      tauto
    · cases he : (faninInfo st.store t x).2 with
      | none =>
          rw [step0_eq_erase_none t st x hpi1 hcost he]
          refine ⟨?_, markMono_refl t st.store⟩
          have hsub : ∀ v, v ∈ st.kept ++ (l ++ st.fresh) →
              v ∈ st.kept ++ ((x :: l) ++ st.fresh) := by
            intro v hv
            simp only [List.mem_append, List.mem_cons] at hv ⊢
            tauto
          refine ⟨h.mo, h.root_marked, fun v hv => h.mem_marked v (hsub v hv),
            fun v hv => h.mem_reach v (hsub v hv),
            fun v hv => h.mem_lt v (hsub v hv), h.marks_sub, ?_, h.const_zero⟩
          intro v hv hnv
          by_cases hvx : v = x
          · subst hvx
            refine ⟨hpi0, ?_⟩
            intro w hw
            obtain ⟨hx0, _, hfan⟩ := hw
            have hmk := faninInfo_none_marked st.store t v hx0 he
            rw [h.mo.fanin0_eq v, h.mo.fanin1_eq v] at hmk
            rcases hfan with hf | hf
            · rw [← hf]
              exact hmk.1
            · rw [← hf]
              exact hmk.2
          · have hvE : v ∉ st.kept ++ ((x :: l) ++ st.fresh) := by
              intro hc
              apply hnv
              simp only [List.mem_append, List.mem_cons] at hc ⊢
              tauto
            exact h.closed v hv hvE
      | some m =>
          obtain ⟨hx0, hmne, hmf⟩ := faninInfo_some_facts st.store t x m he
          have hxlt : x < s0.nodes.length := h.mem_lt x hxE
          have hm0 : st.store.markOf m = 0 := by
            by_cases hz : st.store.markOf m = 0
            · exact hz
            · exact absurd (h.marks_sub m hz) hmne
          have hok : check_and_mark st.store m t = (true, st.store.setMark m t) := by
            simp [check_and_mark, hm0, Ne.symm ht]
          rw [step0_eq_erase_some t st x m hpi1 hcost he, hok]
          dsimp only
          rw [if_pos rfl]
          have hnbz : ¬ bothZero s0 x := not_bothZero_of_and s0 hb x hxlt hx0 hpi0
          have hord := hb.and_ord x hxlt hnbz
          have hwfx := hwf x hxlt
          have hms0 : m = (s0.getNode x).fanin0.index ∨
              m = (s0.getNode x).fanin1.index := by
            rw [← h.mo.fanin0_eq x, ← h.mo.fanin1_eq x]
            exact hmf
          have hmlt : m < s0.nodes.length := by
            rcases hms0 with hf | hf <;> omega
          have hmne0 : m ≠ 0 := by
            rcases hms0 with hf | hf <;> omega
          have hstep_m : stepTo s0 x m := by
            refine ⟨hx0, hpi0, ?_⟩
            rcases hms0 with hf | hf
            · exact Or.inl hf.symm
            · exact Or.inr hf.symm
          have hreach_m : Reach s0 n m := reach_snoc (h.mem_reach x hxE) hstep_m
          have hmlt1 : m < st.store.nodes.length := by
            rw [h.mo.len_eq]
            exact hmlt
          have hmark1 : ∀ v, (st.store.setMark m t).markOf v =
              if v = m then t else st.store.markOf v :=
            fun v => st.store.markOf_setMark m v t hmlt1
          have hmono : MarkMono t st.store (st.store.setMark m t) :=
            markMono_setMark t st.store m
          have hsub : ∀ v, v ∈ st.kept ++ (l ++ (st.fresh ++ [m])) →
              v = m ∨ v ∈ st.kept ++ ((x :: l) ++ st.fresh) := by
            intro v hv
            simp only [List.mem_append, List.mem_cons, List.mem_singleton] at hv ⊢
            tauto
          refine ⟨⟨markOnly_trans h.mo (markOnly_setMark st.store m t),
            hmono n h.root_marked, ?_, ?_, ?_, ?_, ?_, ?_⟩, hmono⟩
          · intro v hv
            rcases hsub v hv with rfl | hv1
            · rw [hmark1 v]
              simp
            · exact hmono v (h.mem_marked v hv1)
          · intro v hv
            rcases hsub v hv with rfl | hv1
            · exact hreach_m
            · exact h.mem_reach v hv1
          · intro v hv
            rcases hsub v hv with rfl | hv1
            · exact hmlt
            · exact h.mem_lt v hv1
          · intro v hv
            rw [hmark1 v] at hv ⊢
            by_cases hvm : v = m
            · rw [if_pos hvm]
            · rw [if_neg hvm] at hv ⊢
              exact h.marks_sub v hv
          · intro v hmk hnv
            rw [hmark1 v] at hmk
            by_cases hvm : v = m
            · exact absurd (by
                simp only [List.mem_append, List.mem_cons, List.mem_singleton]
                tauto) hnv
            · rw [if_neg hvm] at hmk
              by_cases hvx : v = x
              · subst hvx
                refine ⟨hpi0, ?_⟩
                intro w hw
                obtain ⟨-, -, hfan⟩ := hw
                have hfs : fanin_size st.store v = 2 := by
                  unfold fanin_size
                  simp [is_constant, hx0, hpi1]
                have hcnt : 1 ≤ (faninInfo st.store t v).1 := by omega
                have hcc := faninInfo_some_cnt st.store t v m he hcnt
                rw [hmark1 w]
                by_cases hwm : w = m
                · rw [if_pos hwm]
                · rw [if_neg hwm]
                  rw [h.mo.fanin0_eq v, h.mo.fanin1_eq v] at hcc
                  rcases hcc with ⟨hm1, hk1⟩ | ⟨hm1, hk1⟩
                  · rcases hfan with hf | hf
                    · exact absurd (hf.symm.trans hm1.symm) hwm
                    · rw [← hf]
                      exact hk1
                  · rcases hfan with hf | hf
                    · rw [← hf]
                      exact hk1
                    · exact absurd (hf.symm.trans hm1.symm) hwm
              · have hvE : v ∉ st.kept ++ ((x :: l) ++ st.fresh) := by
                  intro hc
                  apply hnv
                  simp only [List.mem_append, List.mem_cons] at hc ⊢
                  tauto
                obtain ⟨hc1, hc2⟩ := h.closed v hmk hvE
                exact ⟨hc1, fun w hw => hmono w (hc2 w hw)⟩
          · intro hn0
            rw [hmark1 0, if_neg (Ne.symm hmne0)]
            exact h.const_zero hn0

theorem foldl_step0_cinv {s0 : Storage} {n t : Nat} (hb : BuildInv s0)
    (hwf : WFStore s0) (ht : t ≠ 0) :
    ∀ (l : List Nat) (st : Pass0State),
      CInv s0 n t st.store (st.kept ++ (l ++ st.fresh)) →
      CInv s0 n t (List.foldl (step0 t) st l).store
        ((List.foldl (step0 t) st l).kept ++ (List.foldl (step0 t) st l).fresh)
      ∧ MarkMono t st.store (List.foldl (step0 t) st l).store := by
  intro l
  induction l with
  | nil =>
      intro st h
      rw [List.foldl_nil]
      refine ⟨h.congr ?_, markMono_refl t st.store⟩
      intro v
      simp
  | cons x l ih =>
      intro st h
      rw [List.foldl_cons]
      obtain ⟨h1, hm1⟩ := step0_cinv hb hwf ht st x l h
      obtain ⟨h2, hm2⟩ := ih (step0 t st x) h1
      exact ⟨h2, markMono_trans hm1 hm2⟩

theorem pass0_cinv {s0 : Storage} {n t : Nat} (hb : BuildInv s0)
    (hwf : WFStore s0) (ht : t ≠ 0) (s : Storage) (cut : List Nat)
    (h : CInv s0 n t s cut) :
    CInv s0 n t (pass0 t s cut).store
      ((pass0 t s cut).kept ++ (pass0 t s cut).fresh)
    ∧ MarkMono t s (pass0 t s cut).store := by
  unfold pass0
  exact foldl_step0_cinv hb hwf ht cut ⟨s, [], [], true, false, false⟩
    (h.congr (by intro v; simp))

theorem expand0Go_cinv {s0 : Storage} {n t : Nat} (hb : BuildInv s0)
    (hwf : WFStore s0) (ht : t ≠ 0) :
    ∀ (fuel : Nat) (s : Storage) (cut : List Nat) (af : Bool),
      CInv s0 n t s cut →
      CInv s0 n t (expand0Go t fuel s cut af).store
        (expand0Go t fuel s cut af).cut
      ∧ MarkMono t s (expand0Go t fuel s cut af).store := by
  intro fuel
  induction fuel with
  | zero => intro s cut af h; exact ⟨h, markMono_refl t s⟩
  | succ fuel ih =>
      intro s cut af h
      obtain ⟨h1, hm1⟩ := pass0_cinv hb hwf ht s cut h
      unfold expand0Go
      dsimp only
      split
      · obtain ⟨h2, hm2⟩ := ih (pass0 t s cut).store
          ((pass0 t s cut).kept ++ (pass0 t s cut).fresh) _ h1
        exact ⟨h2, markMono_trans hm1 hm2⟩
      · exact ⟨h1, hm1⟩

theorem expand0_cinv {s0 : Storage} {n t : Nat} (hb : BuildInv s0)
    (hwf : WFStore s0) (ht : t ≠ 0) (s : Storage) (cut : List Nat)
    (h : CInv s0 n t s cut) :
    CInv s0 n t (expand0 s cut t).store (expand0 s cut t).cut
    ∧ MarkMono t s (expand0 s cut t).store :=
  expand0Go_cinv hb hwf ht _ s cut false h

/-! ### The fix-point shape of a no-change `expand0` pass

When the final pass changes nothing, the cut is returned as is and a
non-trivial verdict exhibits a retained non-constant non-PI leaf; this is
what makes `select_next_fanin`'s candidate list non-empty. -/

theorem step0_changed_mono (t : Nat) (st : Pass0State) (x : Nat)
    (h : st.changed = true) : (step0 t st x).changed = true := by
  unfold step0
  dsimp only
  repeat' split
  all_goals (first | rfl | exact h)

theorem foldl_step0_changed (t : Nat) :
    ∀ (l : List Nat) (st : Pass0State), st.changed = true →
      (List.foldl (step0 t) st l).changed = true := by
  intro l
  induction l with
  | nil => intro st h; exact h
  | cons x l ih =>
      intro st h
      rw [List.foldl_cons]
      exact ih _ (step0_changed_mono t st x h)

theorem foldl_step0_nochange (t : Nat) :
    ∀ (l : List Nat) (st : Pass0State),
      (List.foldl (step0 t) st l).changed = false →
      (List.foldl (step0 t) st l).store = st.store
      ∧ (List.foldl (step0 t) st l).kept = st.kept ++ l
      ∧ (List.foldl (step0 t) st l).fresh = st.fresh
      ∧ ((List.foldl (step0 t) st l).triv = false →
          st.triv = false ∨ ∃ x ∈ l, is_pi st.store x = false ∧ x ≠ 0) := by
  intro l
  induction l with
  | nil =>
      intro st h
      exact ⟨rfl, by simp, rfl, fun h1 => Or.inl h1⟩
  | cons x l ih =>
      intro st h
      rw [List.foldl_cons] at h ⊢
      have hch : (step0 t st x).changed = false := by
        by_contra hc
        have h1 : (step0 t st x).changed = true := by
          cases hval : (step0 t st x).changed
          · exact absurd hval hc
          · rfl
        rw [foldl_step0_changed t l _ h1] at h
        cases h
      obtain ⟨hs, hk, hf, htr⟩ := ih (step0 t st x) h
      by_cases hpi : is_pi st.store x = true
      · rw [step0_eq_pi t st x hpi] at hs hk hf htr hch ⊢
        refine ⟨hs, ?_, hf, ?_⟩
        · rw [hk]
          simp
        · intro h1
          rcases htr h1 with h2 | ⟨y, hy, hyp⟩
          · exact Or.inl h2
          · exact Or.inr ⟨y, by simp [hy], hyp⟩
      · have hpi1 : is_pi st.store x = false := by simpa using hpi
        by_cases hcost : (faninInfo st.store t x).1 + 1 < fanin_size st.store x
        · rw [step0_eq_skip t st x hpi1 hcost] at hs hk hf htr hch ⊢
          refine ⟨hs, ?_, hf, ?_⟩
          · rw [hk]
            simp
          · intro _
            right
            refine ⟨x, by simp, hpi1, ?_⟩
            intro hx0
            have hfs : fanin_size st.store x = 0 := by
              unfold fanin_size
              simp [is_constant, hx0]
            omega
        · exfalso
          cases he : (faninInfo st.store t x).2 with
          | none =>
              rw [step0_eq_erase_none t st x hpi1 hcost he] at hch
              simp at hch
          | some m =>
              rw [step0_eq_erase_some t st x m hpi1 hcost he] at hch
              simp at hch

theorem expand0Go_false_fix (t : Nat) :
    ∀ (fuel : Nat) (s : Storage) (cut : List Nat) (af : Bool),
      (expand0Go t fuel s cut af).triv = false →
      ∃ x ∈ (expand0Go t fuel s cut af).cut,
        is_pi (expand0Go t fuel s cut af).store x = false ∧ x ≠ 0 := by
  intro fuel
  induction fuel with
  | zero => intro s cut af h; cases h
  | succ fuel ih =>
      intro s cut af h
      unfold expand0Go at h ⊢
      dsimp only at h ⊢
      by_cases hch : (pass0 t s cut).changed = true
      · rw [if_pos hch] at h ⊢
        exact ih _ _ _ h
      · rw [if_neg hch] at h ⊢
        have hch1 : (pass0 t s cut).changed = false := by
          cases hval : (pass0 t s cut).changed
          · rfl
          · exact absurd hval hch
        have hm := foldl_step0_nochange t cut ⟨s, [], [], true, false, false⟩
          (by unfold pass0 at hch1; exact hch1)
        obtain ⟨hs, hk, hf, htr⟩ := hm
        have h2 := htr (by unfold pass0 at h; exact h)
        rcases h2 with h3 | ⟨y, hy, hyp⟩
        · cases h3
        · refine ⟨y, ?_, ?_, hyp.2⟩
          · show y ∈ (pass0 t s cut).kept ++ (pass0 t s cut).fresh
            unfold pass0
            rw [hk, hf]
            simp [hy]
          · show is_pi (pass0 t s cut).store y = false
            unfold pass0
            rw [hs]
            exact hyp.1

/-! ### Non-emptiness and provenance of `select_next_fanin`'s candidates -/

theorem evaluate_fanin_ne_nil (m : Nat) (l : List (Nat × Nat)) :
    evaluate_fanin m l ≠ [] := by
  cases l with
  | nil => simp [evaluate_fanin]
  | cons e rest =>
      obtain ⟨a, c⟩ := e
      unfold evaluate_fanin
      split <;> simp

theorem evaluate_fanin_fst (m : Nat) :
    ∀ (l : List (Nat × Nat)) (k : Nat), (∃ c, (k, c) ∈ evaluate_fanin m l) →
      k = m ∨ ∃ c, (k, c) ∈ l := by
  intro l
  induction l with
  | nil =>
      rintro k ⟨c, hc⟩
      simp [evaluate_fanin] at hc
      exact Or.inl hc.1
  | cons e rest ih =>
      rintro k ⟨c, hc⟩
      obtain ⟨a, b⟩ := e
      unfold evaluate_fanin at hc
      by_cases ham : a = m
      · rw [if_pos ham] at hc
        rcases List.mem_cons.mp hc with h1 | h1
        · left
          have h2 : k = a := by simpa using congrArg Prod.fst h1
          rw [h2, ham]
        · exact Or.inr ⟨c, List.mem_cons_of_mem _ h1⟩
      · rw [if_neg ham] at hc
        rcases List.mem_cons.mp hc with h1 | h1
        · have h2 : k = a := by simpa using congrArg Prod.fst h1
          exact Or.inr ⟨b, by rw [h2]; exact List.mem_cons_self _ _⟩
        · rcases ih k ⟨c, h1⟩ with h2 | ⟨c2, h3⟩
          · exact Or.inl h2
          · exact Or.inr ⟨c2, List.mem_cons_of_mem _ h3⟩

theorem collectStep_fst (s : Storage) (acc : List (Nat × Nat)) (x k : Nat)
    (h : ∃ c, (k, c) ∈ collectStep s acc x) :
    (∃ c, (k, c) ∈ acc) ∨
    (is_pi s x = false ∧ x ≠ 0 ∧
      (k = (s.getNode x).fanin0.index ∨ k = (s.getNode x).fanin1.index) ∧
      k ≠ 0) := by
  unfold collectStep at h
  by_cases hg : (is_constant x || is_pi s x) = true
  · rw [if_pos hg] at h
    exact Or.inl h
  · rw [if_neg hg] at h
    dsimp only at h
    have hx : x ≠ 0 ∧ is_pi s x = false := by
      simp [is_constant] at hg
      exact hg
    have hsub : (∃ c, (k, c) ∈
        (if is_constant ((s.getNode x).fanin0.index) then acc
         else evaluate_fanin ((s.getNode x).fanin0.index) acc)) →
        (∃ c, (k, c) ∈ acc) ∨
          (is_pi s x = false ∧ x ≠ 0 ∧
            (k = (s.getNode x).fanin0.index ∨ k = (s.getNode x).fanin1.index) ∧
            k ≠ 0) := by
      intro h1
      by_cases h0 : is_constant ((s.getNode x).fanin0.index) = true
      · rw [if_pos h0] at h1
        exact Or.inl h1
      · rw [if_neg h0] at h1
        rcases evaluate_fanin_fst _ _ k h1 with hk | hc
        · refine Or.inr ⟨hx.2, hx.1, Or.inl hk, ?_⟩
          rw [hk]
          simpa [is_constant] using h0
        · exact Or.inl hc
    by_cases h1 : is_constant ((s.getNode x).fanin1.index) = true
    · rw [if_pos h1] at h
      exact hsub h
    · rw [if_neg h1] at h
      rcases evaluate_fanin_fst _ _ k h with hk | hc
      · refine Or.inr ⟨hx.2, hx.1, Or.inr hk, ?_⟩
        rw [hk]
        simpa [is_constant] using h1
      · exact hsub hc

theorem foldl_collect_fst (s : Storage) :
    ∀ (l : List Nat) (acc : List (Nat × Nat)) (k : Nat),
      (∃ c, (k, c) ∈ List.foldl (collectStep s) acc l) →
      (∃ c, (k, c) ∈ acc) ∨
      ∃ x ∈ l, is_pi s x = false ∧ x ≠ 0 ∧
        (k = (s.getNode x).fanin0.index ∨ k = (s.getNode x).fanin1.index) ∧
        k ≠ 0 := by
  intro l
  induction l with
  | nil => intro acc k h; exact Or.inl h
  | cons x l ih =>
      intro acc k h
      rw [List.foldl_cons] at h
      rcases ih (collectStep s acc x) k h with h1 | ⟨y, hy, hp⟩
      · rcases collectStep_fst s acc x k h1 with h2 | h2
        · exact Or.inl h2
        · exact Or.inr ⟨x, by simp, h2⟩
      · exact Or.inr ⟨y, by simp [hy], hp⟩

theorem collectStep_ne (s : Storage) (acc : List (Nat × Nat)) (x : Nat)
    (hacc : acc ≠ []) : collectStep s acc x ≠ [] := by
  unfold collectStep
  split
  · exact hacc
  · dsimp only
    by_cases h0 : is_constant ((s.getNode x).fanin0.index) = true
    · rw [if_pos h0]
      by_cases h1 : is_constant ((s.getNode x).fanin1.index) = true
      · rw [if_pos h1]; exact hacc
      · rw [if_neg h1]; exact evaluate_fanin_ne_nil _ _
    · rw [if_neg h0]
      by_cases h1 : is_constant ((s.getNode x).fanin1.index) = true
      · rw [if_pos h1]; exact evaluate_fanin_ne_nil _ _
      · rw [if_neg h1]; exact evaluate_fanin_ne_nil _ _

theorem collectStep_activates (s : Storage) (acc : List (Nat × Nat)) (x : Nat)
    (hpi : is_pi s x = false) (hx : x ≠ 0)
    (hf0 : (s.getNode x).fanin0.index ≠ 0) : collectStep s acc x ≠ [] := by
  unfold collectStep
  rw [if_neg (by simp [is_constant, hx, hpi])]
  dsimp only
  by_cases h1 : is_constant ((s.getNode x).fanin1.index) = true
  · rw [if_pos h1, if_neg (by simp [is_constant, hf0])]
    exact evaluate_fanin_ne_nil _ _
  · rw [if_neg h1]
    exact evaluate_fanin_ne_nil _ _

theorem foldl_collect_ne (s : Storage) :
    ∀ (l : List Nat) (acc : List (Nat × Nat)), acc ≠ [] →
      List.foldl (collectStep s) acc l ≠ [] := by
  intro l
  induction l with
  | nil => intro acc h; exact h
  | cons x l ih =>
      intro acc h
      rw [List.foldl_cons]
      exact ih _ (collectStep_ne s acc x h)

theorem foldl_collect_ne_of_mem (s : Storage) (x : Nat)
    (hpi : is_pi s x = false) (hx : x ≠ 0)
    (hf0 : (s.getNode x).fanin0.index ≠ 0) :
    ∀ (l : List Nat) (acc : List (Nat × Nat)), x ∈ l →
      List.foldl (collectStep s) acc l ≠ [] := by
  intro l
  induction l with
  | nil => intro acc h; simp at h
  | cons y l ih =>
      intro acc h
      rw [List.foldl_cons]
      rcases List.mem_cons.mp h with h1 | h1
      · subst h1
        exact foldl_collect_ne s l _ (collectStep_activates s acc x hpi hx hf0)
      · exact ih _ h1

theorem pickBest_mem (s : Storage) :
    ∀ (l : List (Nat × Nat)) (best : Nat × Nat),
      pickBest s l best ∈ best :: l := by
  intro l
  induction l with
  | nil => intro best; simp [pickBest]
  | cons c rest ih =>
      intro best
      unfold pickBest
      have h := ih (if best.2 < c.2 ∨ (c.2 = best.2 ∧
          fanout_size s best.1 < fanout_size s c.1) then c else best)
      rcases List.mem_cons.mp h with h1 | h1
      · rw [h1]
        split
        · exact List.mem_cons_of_mem _ (List.mem_cons_self _ _)
        · exact List.mem_cons_self _ _
      · exact List.mem_cons_of_mem _ (List.mem_cons_of_mem _ h1)

theorem select_mem (s : Storage) (cut : List Nat)
    (hne : collectCands s cut ≠ []) :
    ∃ c, (select_next_fanin s cut, c) ∈ collectCands s cut := by
  unfold select_next_fanin
  cases hc : collectCands s cut with
  | nil => exact absurd hc hne
  | cons c rest =>
      refine ⟨(pickBest s rest c).2, ?_⟩
      have h := pickBest_mem s rest c
      simpa using h

/-- The selected next fanin, under the expansion invariant and given a
retained non-constant non-PI leaf: it is a fanin of some such leaf, hence
non-constant, in range, and reachable from the root. -/
theorem select_good {s0 : Storage} {n t : Nat} (hb : BuildInv s0)
    (hwf : WFStore s0) {s : Storage} {cut : List Nat}
    (h : CInv s0 n t s cut) (x : Nat) (hx : x ∈ cut)
    (hpi : is_pi s x = false) (hx0 : x ≠ 0) :
    select_next_fanin s cut ≠ 0 ∧
    select_next_fanin s cut < s0.nodes.length ∧
    Reach s0 n (select_next_fanin s cut) := by
  have hxlt : x < s0.nodes.length := h.mem_lt x hx
  have hpi0 : is_pi s0 x = false := by
    rw [← is_pi_markOnly h.mo x]
    exact hpi
  have hnbz : ¬ bothZero s0 x := not_bothZero_of_and s0 hb x hxlt hx0 hpi0
  have hord := hb.and_ord x hxlt hnbz
  have hf0 : (s.getNode x).fanin0.index ≠ 0 := by
    rw [h.mo.fanin0_eq x]
    omega
  have hne : collectCands s cut ≠ [] :=
    foldl_collect_ne_of_mem s x hpi hx0 hf0 cut [] hx
  obtain ⟨c, hc⟩ := select_mem s cut hne
  rcases foldl_collect_fst s cut [] (select_next_fanin s cut) ⟨c, hc⟩ with
    h1 | ⟨y, hy, hypi, hy0, hyk, hk0⟩
  · simp at h1
  · have hylt : y < s0.nodes.length := h.mem_lt y hy
    have hypi0 : is_pi s0 y = false := by
      rw [← is_pi_markOnly h.mo y]
      exact hypi
    have hwfy := hwf y hylt
    have hyk0 : select_next_fanin s cut = (s0.getNode y).fanin0.index ∨
        select_next_fanin s cut = (s0.getNode y).fanin1.index := by
      rw [← h.mo.fanin0_eq y, ← h.mo.fanin1_eq y]
      exact hyk
    refine ⟨hk0, ?_, ?_⟩
    · rcases hyk0 with hf | hf <;> omega
    · refine reach_snoc (h.mem_reach y hy) ⟨hy0, hypi0, ?_⟩
      rcases hyk0 with hf | hf
      · exact Or.inl hf.symm
      · exact Or.inr hf.symm

/-- Claiming a selected fanin (`check_and_mark` in `expand`'s loop body)
preserves the invariant with the node appended to the cut.  Under the
invariant the claim cannot fail: every mark is `0` or `t`, and both make
`check_and_mark` succeed. -/
theorem claim_cinv {s0 : Storage} {n t : Nat} {s : Storage} {cut : List Nat}
    (hC : CInv s0 n t s cut) (m : Nat) (ht : t ≠ 0) (hm0 : m ≠ 0)
    (hmlt : m < s0.nodes.length) (hmreach : Reach s0 n m) :
    (check_and_mark s m t).1 = true
    ∧ CInv s0 n t (check_and_mark s m t).2 (cut ++ [m])
    ∧ MarkMono t s (check_and_mark s m t).2 := by
  by_cases hmt : s.markOf m = t
  · have hcm : check_and_mark s m t = (true, s) := by
      simp [check_and_mark, hmt]
    rw [hcm]
    refine ⟨rfl, ⟨hC.mo, hC.root_marked, ?_, ?_, ?_, hC.marks_sub, ?_,
      hC.const_zero⟩, markMono_refl t s⟩
    · intro v hv
      rcases List.mem_append.mp hv with hv | hv
      · exact hC.mem_marked v hv
      · rw [List.mem_singleton.mp hv]
        exact hmt
    · intro v hv
      rcases List.mem_append.mp hv with hv | hv
      · exact hC.mem_reach v hv
      · rw [List.mem_singleton.mp hv]
        exact hmreach
    · intro v hv
      rcases List.mem_append.mp hv with hv | hv
      · exact hC.mem_lt v hv
      · rw [List.mem_singleton.mp hv]
        exact hmlt
    · intro v hmk hnv
      refine hC.closed v hmk ?_
      intro hc
      exact hnv (List.mem_append.mpr (Or.inl hc))
  · have hm00 : s.markOf m = 0 := by
      by_cases h0 : s.markOf m = 0
      · exact h0
      · exact absurd (hC.marks_sub m h0) hmt
    have hcm : check_and_mark s m t = (true, s.setMark m t) := by
      simp [check_and_mark, hm00, hmt, Ne.symm ht]
    rw [hcm]
    have hmlt1 : m < s.nodes.length := by
      rw [hC.mo.len_eq]
      exact hmlt
    have hmark1 : ∀ v, (s.setMark m t).markOf v =
        if v = m then t else s.markOf v :=
      fun v => s.markOf_setMark m v t hmlt1
    have hmono : MarkMono t s (s.setMark m t) := markMono_setMark t s m
    refine ⟨rfl, ⟨markOnly_trans hC.mo (markOnly_setMark s m t),
      hmono n hC.root_marked, ?_, ?_, ?_, ?_, ?_, ?_⟩, hmono⟩
    · intro v hv
      rcases List.mem_append.mp hv with hv | hv
      · exact hmono v (hC.mem_marked v hv)
      · rw [List.mem_singleton.mp hv, hmark1 m, if_pos rfl]
    · intro v hv
      rcases List.mem_append.mp hv with hv | hv
      · exact hC.mem_reach v hv
      · rw [List.mem_singleton.mp hv]
        exact hmreach
    · intro v hv
      rcases List.mem_append.mp hv with hv | hv
      · exact hC.mem_lt v hv
      · rw [List.mem_singleton.mp hv]
        exact hmlt
    · intro v hv
      rw [hmark1 v] at hv ⊢
      by_cases hvm : v = m
      · rw [if_pos hvm]
      · rw [if_neg hvm] at hv ⊢
        exact hC.marks_sub v hv
    · intro v hmk hnv
      rw [hmark1 v] at hmk
      by_cases hvm : v = m
      · exact absurd (List.mem_append.mpr (Or.inr (by simp [hvm]))) hnv
      · rw [if_neg hvm] at hmk
        have hvc : v ∉ cut := fun hc => hnv (List.mem_append.mpr (Or.inl hc))
        obtain ⟨hc1, hc2⟩ := hC.closed v hmk hvc
        exact ⟨hc1, fun w hw => hmono w (hc2 w hw)⟩
    · intro hn0
      rw [hmark1 0, if_neg (Ne.symm hm0)]
      exact hC.const_zero hn0

theorem expand0_false_fix (s : Storage) (cut : List Nat) (t : Nat)
    (h : (expand0 s cut t).triv = false) :
    ∃ x ∈ (expand0 s cut t).cut,
      is_pi (expand0 s cut t).store x = false ∧ x ≠ 0 :=
  expand0Go_false_fix t _ s cut false h

set_option maxHeartbeats 1000000 in
/-- The while loop of `expand` preserves the invariant for the current
cut, and every engaged `best_cut` snapshot covers the root, consists of
reachable in-range nodes, and stays claimed in the current storage. -/
theorem expandGo_cinv {s0 : Storage} {n t : Nat} (hb : BuildInv s0)
    (hwf : WFStore s0) (ht : t ≠ 0) (limit : Nat) :
    ∀ (fuel : Nat) (s : Storage) (cut : List Nat) (best : Option (List Nat))
      (trivB : Bool) (iters : Nat) (caf : Bool),
      CInv s0 n t s cut →
      (trivB = false → ∃ x ∈ cut, is_pi s x = false ∧ x ≠ 0) →
      (∀ b, best = some b → Covers s0 n b ∧
        ∀ v ∈ b, Reach s0 n v ∧ v < s0.nodes.length ∧ s.markOf v = t) →
      CInv s0 n t (expandGo t limit fuel s cut best trivB iters caf).1
        (expandGo t limit fuel s cut best trivB iters caf).2.1
      ∧ (∀ b, (expandGo t limit fuel s cut best trivB iters caf).2.2.1 = some b →
          Covers s0 n b ∧ ∀ v ∈ b, Reach s0 n v ∧ v < s0.nodes.length ∧
            (expandGo t limit fuel s cut best trivB iters caf).1.markOf v = t) := by
  intro fuel
  induction fuel with
  | zero => intro s cut best trivB iters caf hC htriv hbest; exact ⟨hC, hbest⟩
  | succ fuel ih =>
      intro s cut best trivB iters caf hC htriv hbest
      unfold expandGo
      dsimp only
      split
      case isFalse => exact ⟨hC, hbest⟩
      case isTrue hguard =>
        rw [Bool.and_eq_true] at hguard
        have htrivB : trivB = false := by simpa using hguard.1
        obtain ⟨x, hx, hxpi, hx0⟩ := htriv htrivB
        obtain ⟨hm0, hmlt, hmreach⟩ := select_good hb hwf hC x hx hxpi hx0
        obtain ⟨hok, hC1, hmono1⟩ :=
          claim_cinv hC (select_next_fanin s cut) ht hm0 hmlt hmreach
        rw [hok, if_pos rfl]
        obtain ⟨hC2, hmono2⟩ := expand0_cinv hb hwf ht _ _ hC1
        have hmono : MarkMono t s
            (expand0 (check_and_mark s (select_next_fanin s cut) t).2
              (cut ++ [select_next_fanin s cut]) t).store :=
          markMono_trans hmono1 hmono2
        refine ih _ _ _ _ _ _ hC2 (fun h1 => expand0_false_fix _ _ _ h1) ?_
        intro b hb1
        split at hb1
        · have hbe : b = (expand0 (check_and_mark s (select_next_fanin s cut) t).2
              (cut ++ [select_next_fanin s cut]) t).cut :=
            (Option.some.injEq _ _).mp hb1.symm
          subst hbe
          exact ⟨cinv_covers hC2, fun v hv =>
            ⟨hC2.mem_reach v hv, hC2.mem_lt v hv, hC2.mem_marked v hv⟩⟩
        · obtain ⟨hcov, hprops⟩ := hbest b hb1
          exact ⟨hcov, fun v hv =>
            ⟨(hprops v hv).1, (hprops v hv).2.1, hmono v (hprops v hv).2.2⟩⟩

/-- The guarantees of `expand` under the invariant: the returned cut —
whether the current cut or a `best_cut` snapshot — covers the root, its
leaves are reachable and in range, all its nodes are claimed in the final
storage, and (for a non-constant root) the constant node stays unclaimed. -/
theorem expand_props {s0 : Storage} {n t : Nat} (hb : BuildInv s0)
    (hwf : WFStore s0) (ht : t ≠ 0) (s : Storage) (cut : List Nat)
    (limit : Nat) (hC : CInv s0 n t s cut) :
    Covers s0 n (expand s cut limit t).cut
    ∧ (∀ v ∈ (expand s cut limit t).cut,
        Reach s0 n v ∧ v < s0.nodes.length ∧
        (expand s cut limit t).store.markOf v = t)
    ∧ (n ≠ 0 → (expand s cut limit t).store.markOf 0 = 0) := by
  obtain ⟨hC0, hm0⟩ := expand0_cinv hb hwf ht s cut hC
  unfold expand
  dsimp only
  split
  case isTrue h =>
    exact ⟨cinv_covers hC0, fun v hv =>
      ⟨hC0.mem_reach v hv, hC0.mem_lt v hv, hC0.mem_marked v hv⟩,
      hC0.const_zero⟩
  case isFalse h =>
    have htrivF : (expand0 s cut t).triv = false := by
      cases hval : (expand0 s cut t).triv
      · rfl
      · exact absurd hval h
    obtain ⟨hCr, hbestr⟩ := expandGo_cinv hb hwf ht limit (s.nodes.length + 2)
      (expand0 s cut t).store (expand0 s cut t).cut none false 0
      (expand0 s cut t).cafail hC0
      (fun _ => expand0_false_fix s cut t htrivF)
      (fun b hb1 => by cases hb1)
    cases hrb : (expandGo t limit (s.nodes.length + 2) (expand0 s cut t).store
        (expand0 s cut t).cut none false 0 (expand0 s cut t).cafail).2.2.1 with
    | some b =>
        dsimp only
        obtain ⟨hcov, hprops⟩ := hbestr b hrb
        exact ⟨hcov, hprops, hCr.const_zero⟩
    | none =>
        dsimp only
        exact ⟨cinv_covers hCr, fun v hv =>
          ⟨hCr.mem_reach v hv, hCr.mem_lt v hv, hCr.mem_marked v hv⟩,
          hCr.const_zero⟩

/-- The invariant at the start of `expand`, right after `create_cut`
claimed the root of the freshly built (all-marks-zero) graph. -/
theorem seed_cinv (ops : List BuildOp) (n t : Nat) (ht : t ≠ 0)
    (hn : n < (build ops).nodes.length) :
    CInv (build ops) n t ((build ops).setMark n t) [n] := by
  have hb := buildInv_build ops
  have hroot : ((build ops).setMark n t).markOf n = t :=
    (build ops).markOf_setMark_self n t hn
  have hmark1 : ∀ v, ((build ops).setMark n t).markOf v =
      if v = n then t else (build ops).markOf v :=
    fun v => (build ops).markOf_setMark n v t hn
  refine ⟨markOnly_setMark (build ops) n t, hroot, ?_, ?_, ?_, ?_, ?_, ?_⟩
  · intro v hv
    rw [List.mem_singleton.mp hv]
    exact hroot
  · intro v hv
    rw [List.mem_singleton.mp hv]
    exact Reach.refl n
  · intro v hv
    rw [List.mem_singleton.mp hv]
    exact hn
  · intro v hv
    rw [hmark1 v] at hv ⊢
    by_cases hvn : v = n
    · rw [if_pos hvn]
    · rw [if_neg hvn] at hv ⊢
      exact absurd (hb.marks_zero v) hv
  · intro v hmk hnv
    rw [hmark1 v] at hmk
    by_cases hvn : v = n
    · exact absurd (by simp [hvn]) hnv
    · rw [if_neg hvn, hb.marks_zero v] at hmk
      exact absurd hmk.symm ht
  · intro hn0
    rw [hmark1 0, if_neg (Ne.symm hn0)]
    exact hb.marks_zero 0

theorem create_cut_eq_expand (ops : List BuildOp) (n t : Nat) (ht : t ≠ 0) :
    create_cut (build ops) n t = expand ((build ops).setMark n t) [n] 6 t := by
  have hb := buildInv_build ops
  have hcm : check_and_mark (build ops) n t = (true, (build ops).setMark n t) := by
    simp [check_and_mark, hb.marks_zero n, Ne.symm ht]
  unfold create_cut
  rw [hcm]
  rfl

/-- Claim C1 (amended): on a validly built graph, starting from the
build-phase mark state (all marks zero), a cut returned by `create_cut`
covers every fanin path from `n` that ends at a PI, all its leaves are
reachable from `n`, and all of them carry mark `t` in the final storage. -/
theorem create_cut_covering (ops : List BuildOp)
    (hv : validOps initStorage ops = true) (n t : Nat) (ht : t ≠ 0)
    (hn : n < (build ops).nodes.length) :
    (create_cut (build ops) n t).cut ≠ [] →
      (∀ p, PathTo (build ops) n p → EndsAtPi (build ops) p →
        ∃ v, v ∈ p ∧ v ∈ (create_cut (build ops) n t).cut)
      ∧ (∀ v ∈ (create_cut (build ops) n t).cut, Reach (build ops) n v)
      ∧ (∀ v ∈ (create_cut (build ops) n t).cut,
          (create_cut (build ops) n t).store.markOf v = t) := by
  intro _
  have hb := buildInv_build ops
  have hwf := wf_build ops hv
  rw [create_cut_eq_expand ops n t ht]
  obtain ⟨hcov, hprops, _⟩ :=
    expand_props hb hwf ht ((build ops).setMark n t) [n] 6
      (seed_cinv ops n t ht hn)
  exact ⟨fun p hp hend => hcov p hp hend,
    fun v hv1 => (hprops v hv1).1, fun v hv1 => (hprops v hv1).2.2⟩

/-- Claim C1, witness: `create_cut(n3, 1)` on the freshly built two-PI
graph. -/
theorem create_cut_covering_witness :
    (validOps initStorage ops3 = true ∧ (1 : Nat) ≠ 0
      ∧ 3 < (build ops3).nodes.length)
    ∧ ((create_cut (build ops3) 3 1).cut ≠ [] →
        (∀ p, PathTo (build ops3) 3 p → EndsAtPi (build ops3) p →
          ∃ v, v ∈ p ∧ v ∈ (create_cut (build ops3) 3 1).cut)
        ∧ (∀ v ∈ (create_cut (build ops3) 3 1).cut, Reach (build ops3) 3 v)
        ∧ (∀ v ∈ (create_cut (build ops3) 3 1).cut,
            (create_cut (build ops3) 3 1).store.markOf v = 1)) :=
  ⟨⟨by decide, by decide, by decide⟩,
    create_cut_covering ops3 (by decide) 3 1 (by decide) (by decide)⟩

/-- `release_cut` only ever clears marks: any mark after it is either `0`
or whatever it was before. -/
theorem release_decrease (t1 : Nat) :
    ∀ (fuel : Nat) (s : Storage) (m v : Nat),
      (releaseGo t1 fuel s m).markOf v = 0
      ∨ (releaseGo t1 fuel s m).markOf v = s.markOf v := by
  have hset : ∀ (s : Storage) (m v : Nat),
      (s.setMark m 0).markOf v = 0 ∨ (s.setMark m 0).markOf v = s.markOf v := by
    intro s m v
    by_cases hvm : v = m
    · subst hvm
      by_cases hl : v < s.nodes.length
      · exact Or.inl (s.markOf_setMark_self v 0 hl)
      · right
        rw [Storage.setMark, setAt_of_le _ _ _ (Nat.le_of_not_lt hl)]
    · exact Or.inr (s.markOf_setMark_ne m v 0 hvm)
  intro fuel
  induction fuel with
  | zero => intro s m v; exact Or.inr rfl
  | succ fuel ih =>
      intro s m v
      unfold releaseGo
      dsimp only
      split
      · exact Or.inr rfl
      · split
        · exact hset s m v
        · rcases ih (releaseGo t1 fuel (reset_mark s m)
              ((reset_mark s m).getNode m).fanin0.index)
              ((reset_mark s m).getNode m).fanin1.index v with h2 | h2
          · exact Or.inl h2
          · rw [h2]
            rcases ih (reset_mark s m)
                ((reset_mark s m).getNode m).fanin0.index v with h3 | h3
            · exact Or.inl h3
            · rw [h3]
              exact hset s m v

/-- Claim C8 (amended): during `create_cut` on a non-constant node of a
validly built graph (all marks zero) the constant node's mark stays `0`,
and `release_cut` never sets a mark, so it keeps the constant's mark at
`0` from any state where it is `0`.  (PIs, by contrast, do get marked —
see the counterexample.) -/
theorem constant_never_marked (ops : List BuildOp)
    (hv : validOps initStorage ops = true) (n t : Nat) (hn0 : n ≠ 0)
    (ht : t ≠ 0) (hn : n < (build ops).nodes.length) :
    (create_cut (build ops) n t).store.markOf 0 = 0
    ∧ ∀ (s1 : Storage) (m : Nat) (cut1 : List Nat) (t1 : Nat),
        s1.markOf 0 = 0 → (release_cut s1 m cut1 t1).markOf 0 = 0 := by
  constructor
  · have hb := buildInv_build ops
    have hwf := wf_build ops hv
    rw [create_cut_eq_expand ops n t ht]
    obtain ⟨-, -, hz⟩ :=
      expand_props hb hwf ht ((build ops).setMark n t) [n] 6
        (seed_cinv ops n t ht hn)
    exact hz hn0
  · intro s1 m cut1 t1 h0
    unfold release_cut
    rcases release_decrease t1 (m + 1) s1 m 0 with h | h
    · exact h
    · rw [h]
      exact h0

/-- Claim C8, witness: `create_cut(n3, 1)` on the two-PI graph leaves the
constant node unmarked, and releasing keeps it unmarked. -/
theorem constant_never_marked_witness :
    (validOps initStorage ops3 = true ∧ (3 : Nat) ≠ 0 ∧ (1 : Nat) ≠ 0
      ∧ 3 < (build ops3).nodes.length)
    ∧ ((create_cut (build ops3) 3 1).store.markOf 0 = 0
        ∧ ∀ (s1 : Storage) (m : Nat) (cut1 : List Nat) (t1 : Nat),
            s1.markOf 0 = 0 → (release_cut s1 m cut1 t1).markOf 0 = 0) :=
  ⟨⟨by decide, by decide, by decide, by decide⟩,
    constant_never_marked ops3 (by decide) 3 1 (by decide) (by decide) (by decide)⟩

end Aig
